import Mathlib

/-
Verification of the LitScout semantic retrieval pipeline against its
implementation.

Each definition below is a shallow embedding of a function of the
repository (file and symbol given in its doc comment).  Python floats are
modelled as rationals (exact arithmetic), Python strings either as `String`
(when only compared) or as `List Char` (when character surgery such as
strip/split/join matters), Python dicts as association lists queried
through `List.lookup` / `List.find?`, and SQL result sets as Lean lists
with the relevant ORDER BY / LIMIT / OFFSET semantics made explicit.
-/

set_option maxHeartbeats 1000000

namespace LitScout

/-! ## Generic helpers -/

/-- Insert `a` into `l` in front of the first element `x` with `le a x`. -/
def insertBy (le : α → α → Bool) (a : α) : List α → List α
  | [] => [a]
  | x :: xs => if le a x then a :: x :: xs else x :: insertBy le a xs

/-- Insertion sort by the boolean relation `le`; models an ORDER BY clause. -/
def sortBy (le : α → α → Bool) (l : List α) : List α :=
  l.foldr (insertBy le) []

theorem insertBy_perm (le : α → α → Bool) (a : α) (l : List α) :
    (insertBy le a l).Perm (a :: l) := by
  induction l with
  | nil => simp [insertBy]
  | cons x xs ih =>
      simp only [insertBy]
      by_cases h : le a x
      · simp [h]
      · simp only [h, if_neg]
        exact ((ih.cons x).trans (List.Perm.swap a x xs)).symm.symm

theorem sortBy_perm (le : α → α → Bool) (l : List α) :
    (sortBy le l).Perm l := by
  induction l with
  | nil => simp [sortBy]
  | cons x xs ih =>
      simpa [sortBy] using (insertBy_perm le x (sortBy le xs)).trans (ih.cons x)

theorem insertBy_pairwise (le : α → α → Bool)
    (htot : ∀ a b, le a b = false → le b a = true)
    (htrans : ∀ a b c, le a b = true → le b c = true → le a c = true)
    (a : α) (l : List α) (hl : l.Pairwise (fun x y => le x y = true)) :
    (insertBy le a l).Pairwise (fun x y => le x y = true) := by
  induction l with
  | nil => simp [insertBy]
  | cons x xs ih =>
      simp only [insertBy]
      rcases List.pairwise_cons.mp hl with ⟨hx, hxs⟩
      by_cases h : le a x
      · rw [if_pos h]
        refine List.pairwise_cons.mpr ⟨?_, hl⟩
        intro y hy
        rcases List.mem_cons.mp hy with hy | hy
        · simpa [hy] using h
        · exact htrans a x y h (hx y hy)
      · rw [if_neg h]
        refine List.pairwise_cons.mpr ⟨?_, ih hxs⟩
        intro y hy
        have hy' := (insertBy_perm le a xs).mem_iff.mp hy
        rcases List.mem_cons.mp hy' with hy' | hy'
        · rw [hy']
          exact htot a x (by simpa using h)
        · exact hx y hy'

theorem sortBy_pairwise (le : α → α → Bool)
    (htot : ∀ a b, le a b = false → le b a = true)
    (htrans : ∀ a b c, le a b = true → le b c = true → le a c = true)
    (l : List α) :
    (sortBy le l).Pairwise (fun x y => le x y = true) := by
  induction l with
  | nil => simp [sortBy]
  | cons x xs ih => exact insertBy_pairwise le htot htrans x _ ih

/-! ## C2 — weight renormalization (litscout/server/api.py, LitScoutAPI.search) -/

/-- litscout/server/api.py, LitScoutAPI.search, hybrid/venue/author branches:
if `paper_weight + concept_weight != 1.0`, replace the weight equal to the
legacy default 0.4 (`paper_weight == 0.4`) by `1 - other`, else replace
`concept_weight`; weights summing to 1.0 pass through unchanged. -/
def normalizeWeights (paper_weight concept_weight : ℚ) : ℚ × ℚ :=
  if paper_weight + concept_weight ≠ 1 then
    if paper_weight = 2/5 then (1 - concept_weight, concept_weight)
    else (paper_weight, 1 - paper_weight)
  else (paper_weight, concept_weight)

/-- C2: for every weight pair not summing to 1.0 the entry point renormalizes
(replacing `paper_weight` when it equals the legacy default 0.4, else
replacing `concept_weight` with `1 - paper_weight`), input (0.4, 0.4) becomes
(0.6, 0.4), and weights already summing to 1.0 pass through unchanged. -/
theorem weight_renormalization (pw cw : ℚ) :
    (pw + cw ≠ 1 →
      normalizeWeights pw cw =
        if pw = 2/5 then (1 - cw, cw) else (pw, 1 - pw)) ∧
    (pw + cw ≠ 1 → (normalizeWeights pw cw).1 + (normalizeWeights pw cw).2 = 1) ∧
    (pw + cw = 1 → normalizeWeights pw cw = (pw, cw)) ∧
    normalizeWeights (2/5) (2/5) = (3/5, 2/5) := by
  have h1 : ∀ pw cw : ℚ, pw + cw ≠ 1 →
      normalizeWeights pw cw = if pw = 2/5 then (1 - cw, cw) else (pw, 1 - pw) := by
    intro pw cw h
    simp [normalizeWeights, h]
  refine ⟨h1 pw cw, ?_, ?_, by norm_num [normalizeWeights]⟩
  · intro h
    rw [h1 pw cw h]
    by_cases hd : pw = 2/5
    · rw [if_pos hd]
      show (1 - cw) + cw = 1
      ring
    · rw [if_neg hd]
      show pw + (1 - pw) = 1
      ring
  · intro h
    simp [normalizeWeights, h]

/-- Concrete instantiation of the weight-renormalization theorem. -/
theorem weight_renormalization_witness :
    normalizeWeights (2/5) (2/5) = (3/5, 2/5) ∧
    normalizeWeights (1/2) (1/4) = (1/2, 1/2) ∧
    normalizeWeights (3/5) (2/5) = (3/5, 2/5) := by
  refine ⟨(weight_renormalization (2/5) (2/5)).2.2.2, ?_, ?_⟩
  · have h := (weight_renormalization (1/2) (1/4)).1 (by norm_num)
    rw [if_neg (by norm_num : ¬ ((1/2 : ℚ) = 2/5))] at h
    rw [h]
    norm_num
  · exact (weight_renormalization (3/5) (2/5)).2.2.1 (by norm_num)

/-! ## C8 — title normalization (litscout/server/ingestion/openalex/normalizer.py) -/

/-- Python str.strip() default whitespace characters (ASCII subset). -/
def isPySpace (c : Char) : Bool :=
  c = ' ' ∨ c = '\t' ∨ c = '\n' ∨ c = '\r' ∨ c = '\x0b' ∨ c = '\x0c'

/-- Python str.strip(): drop whitespace from both ends. -/
def pyStrip (s : List Char) : List Char :=
  ((s.dropWhile isPySpace).reverse.dropWhile isPySpace).reverse

/-- Python truthiness-based `a or b` on optional strings:
None and the empty string are falsy. -/
def pyOrStr (a b : Option (List Char)) : Option (List Char) :=
  match a with
  | some s => if s = [] then b else some s
  | none => b

/-- The literal fallback title. -/
def untitled : List Char := "(untitled)".toList

/-- normalizer.py, normalize_openalex_work lines 31-33:
raw_title = work.get("title") or work.get("display_name");
title = raw_title.strip() if raw_title is a nonblank string else "(untitled)". -/
def normalizeTitle (title display_name : Option (List Char)) : List Char :=
  match pyOrStr title display_name with
  | some s => if pyStrip s ≠ [] then pyStrip s else untitled
  | none => untitled

/-- Modelled from the spec: "titles collapse whitespace" — replace every
maximal run of whitespace by a single space and trim the ends.  Stated only
to compare with the behaviour of the code, which merely strips the ends. -/
def collapseWhitespace (s : List Char) : List Char :=
  List.intercalate [' '] ((s.splitOnP isPySpace).filter (fun w => w ≠ []))

/-- C8 counterexample: for the raw title "a  b" (internal double space) the
normalized title is "a  b", not the whitespace-collapsed "a b", so the title
produced by normalize_openalex_work is not the raw title after whitespace
collapse. -/
theorem title_collapse_counterexample :
    normalizeTitle (some ("a  b".toList)) none ≠ collapseWhitespace ("a  b".toList) ∧
    normalizeTitle (some ("a  b".toList)) none = "a  b".toList ∧
    collapseWhitespace ("a  b".toList) = "a b".toList := by
  refine ⟨by decide, by decide, by decide⟩

/-- C8 amended: the title produced by normalize_openalex_work equals the raw
title after stripping leading and trailing whitespace (internal whitespace is
preserved), and equals "(untitled)" when the raw title is absent, empty, or
whitespace-only. -/
theorem title_strip_amended (title display_name : Option (List Char)) :
    (∀ s, pyOrStr title display_name = some s → pyStrip s ≠ [] →
        normalizeTitle title display_name = pyStrip s ∧
        ∃ u v, s = u ++ pyStrip s ++ v ∧
          (∀ c ∈ u, isPySpace c = true) ∧ (∀ c ∈ v, isPySpace c = true)) ∧
    (∀ s, pyOrStr title display_name = some s → pyStrip s = [] →
        normalizeTitle title display_name = untitled) ∧
    (pyOrStr title display_name = none →
        normalizeTitle title display_name = untitled) := by
  refine ⟨?_, ?_, ?_⟩
  · intro s hs hne
    refine ⟨by simp [normalizeTitle, hs, hne], ?_⟩
    refine ⟨s.takeWhile isPySpace, ((s.dropWhile isPySpace).reverse.takeWhile isPySpace).reverse, ?_, ?_, ?_⟩
    · have h1 : s.takeWhile isPySpace ++ s.dropWhile isPySpace = s :=
        List.takeWhile_append_dropWhile isPySpace s
      have h3 : s.dropWhile isPySpace =
          pyStrip s ++ ((s.dropWhile isPySpace).reverse.takeWhile isPySpace).reverse := by
        have hsplit : ∀ d : List Char,
            d = (d.reverse.dropWhile isPySpace).reverse ++
                (d.reverse.takeWhile isPySpace).reverse := by
          intro d
          conv_lhs => rw [← List.reverse_reverse d,
            ← List.takeWhile_append_dropWhile isPySpace d.reverse]
          rw [List.reverse_append]
        exact hsplit (s.dropWhile isPySpace)
      calc s = s.takeWhile isPySpace ++ s.dropWhile isPySpace := h1.symm
        _ = s.takeWhile isPySpace ++
            (pyStrip s ++ ((s.dropWhile isPySpace).reverse.takeWhile isPySpace).reverse) := by
              rw [← h3]
        _ = s.takeWhile isPySpace ++ pyStrip s ++
            ((s.dropWhile isPySpace).reverse.takeWhile isPySpace).reverse := by
              rw [List.append_assoc]
    · intro c hc
      exact List.mem_takeWhile_imp hc
    · intro c hc
      exact List.mem_takeWhile_imp (List.mem_reverse.mp hc)
  · intro s hs he
    simp [normalizeTitle, hs, he]
  · intro h
    simp [normalizeTitle, h]

/-- Concrete instantiation of the amended title theorem: " hi " strips to
"hi", and a whitespace-only title falls back to "(untitled)". -/
theorem title_strip_amended_witness :
    normalizeTitle (some (" hi ".toList)) none = "hi".toList ∧
    normalizeTitle (some ("  ".toList)) none = untitled := by
  constructor
  · exact ((title_strip_amended (some (" hi ".toList)) none).1
      (" hi ".toList) (by decide) (by decide)).1.trans (by decide)
  · exact (title_strip_amended (some ("  ".toList)) none).2.1
      ("  ".toList) (by decide) (by decide)

/-! ## C9 — worker-pool sizing (litscout/server/ingestion/openalex/ingest.py) -/

/-- Python `list(dict.fromkeys(l))`: deduplicate keeping first occurrences. -/
def dedupPreservingOrder (l : List String) : List String :=
  l.foldl (fun acc x => if x ∈ acc then acc else acc ++ [x]) []

/-- ingest.py, ingest_openalex_concepts lines 187-233: after the early
returns, concept ids are deduplicated, optionally filtered by the set of
already-ingested concepts, and the thread pool is sized
min(len(concept_ids), max_workers).  The result is the ThreadPoolExecutor
max_workers value; 0 stands for the early returns where no pool is made. -/
def filteredConceptIds (concept_ids : List String)
    (skip_existing : Bool) (existing : List String) : List String :=
  if skip_existing then
    (dedupPreservingOrder concept_ids).filter (fun c => ¬ c ∈ existing)
  else dedupPreservingOrder concept_ids

def effectiveMaxWorkers (concept_ids : List String) (max_workers : Nat)
    (skip_existing : Bool) (existing : List String) : Nat :=
  if concept_ids = [] then 0
  else if filteredConceptIds concept_ids skip_existing existing = [] then 0
  else min (filteredConceptIds concept_ids skip_existing existing).length max_workers

/-- C9 counterexample: with nine distinct concept ids and a requested
max_workers of 9, nine workers are used against the provider — there is no
hard cap of 8. -/
theorem worker_cap_counterexample :
    effectiveMaxWorkers ["c1", "c2", "c3", "c4", "c5", "c6", "c7", "c8", "c9"]
      9 false [] = 9 ∧ ¬ (9 ≤ 8) := by
  refine ⟨by decide, by decide⟩

/-- C9 amended: the number of concurrent workers is bounded by the
caller-requested max_workers and by the number of distinct concept ids
(after deduplication); no constant cap of 8 exists in the code. -/
theorem worker_bound_amended (concept_ids : List String) (max_workers : Nat)
    (skip_existing : Bool) (existing : List String) :
    effectiveMaxWorkers concept_ids max_workers skip_existing existing ≤ max_workers ∧
    effectiveMaxWorkers concept_ids max_workers skip_existing existing ≤
      (dedupPreservingOrder concept_ids).length := by
  have hlen : (filteredConceptIds concept_ids skip_existing existing).length ≤
      (dedupPreservingOrder concept_ids).length := by
    unfold filteredConceptIds
    cases skip_existing
    · simp
    · simpa using List.length_filter_le _ _
  unfold effectiveMaxWorkers
  constructor
  · split
    · exact Nat.zero_le _
    · split
      · exact Nat.zero_le _
      · exact min_le_right _ _
  · split
    · exact Nat.zero_le _
    · split
      · exact Nat.zero_le _
      · exact le_trans (min_le_left _ _) hlen

/-! ## Association-list helpers (model of Python dicts / JSONB objects) -/

section AssocHelpers

variable {κ β : Type} [DecidableEq κ]

/-- First-match lookup in an association list. -/
def lookupKey (k : κ) : List (κ × β) → Option β
  | [] => none
  | kv :: rest => if kv.1 = k then some kv.2 else lookupKey k rest

/-- Python dict assignment `m[k] = b`: replace in place or append. -/
def insertOrUpdate (k : κ) (b : β) : List (κ × β) → List (κ × β)
  | [] => [(k, b)]
  | kv :: rest => if kv.1 = k then (k, b) :: rest else kv :: insertOrUpdate k b rest

/-- PostgreSQL `jsonb || jsonb`: right-biased union of two objects. -/
def mergeKV (old new : List (κ × β)) : List (κ × β) :=
  old.filter (fun kv => (lookupKey kv.1 new).isNone) ++ new

theorem lookupKey_insertOrUpdate_self (k : κ) (b : β) (m : List (κ × β)) :
    lookupKey k (insertOrUpdate k b m) = some b := by
  induction m with
  | nil => simp [insertOrUpdate, lookupKey]
  | cons kv rest ih =>
      by_cases h : kv.1 = k
      · simp [insertOrUpdate, h, lookupKey]
      · simp [insertOrUpdate, h, lookupKey, ih]

theorem lookupKey_insertOrUpdate_ne (k k' : κ) (b : β) (m : List (κ × β))
    (h : k' ≠ k) :
    lookupKey k' (insertOrUpdate k b m) = lookupKey k' m := by
  induction m with
  | nil => simp [insertOrUpdate, lookupKey, Ne.symm h]
  | cons kv rest ih =>
      by_cases hk : kv.1 = k
      · have h2 : kv.1 ≠ k' := fun he => h ((hk.symm.trans he).symm)
        simp [insertOrUpdate, hk, lookupKey, Ne.symm h, h2]
      · simp [insertOrUpdate, hk, lookupKey, ih]

theorem mem_insertOrUpdate (p : κ × β) (k : κ) (b : β) (m : List (κ × β))
    (hp : p ∈ insertOrUpdate k b m) : p = (k, b) ∨ p ∈ m := by
  induction m with
  | nil => simpa [insertOrUpdate] using hp
  | cons kv rest ih =>
      by_cases h : kv.1 = k
      · rw [insertOrUpdate, if_pos h] at hp
        rcases List.mem_cons.mp hp with h1 | h1
        · exact Or.inl h1
        · exact Or.inr (List.mem_cons_of_mem _ h1)
      · rw [insertOrUpdate, if_neg h] at hp
        rcases List.mem_cons.mp hp with h1 | h1
        · exact Or.inr (h1 ▸ List.mem_cons_self _ _)
        · rcases ih h1 with h2 | h2
          · exact Or.inl h2
          · exact Or.inr (List.mem_cons_of_mem _ h2)

theorem keys_insertOrUpdate_subset (x k : κ) (b : β) (m : List (κ × β))
    (hx : x ∈ (insertOrUpdate k b m).map Prod.fst) :
    x = k ∨ x ∈ m.map Prod.fst := by
  rcases List.mem_map.mp hx with ⟨p, hp, rfl⟩
  rcases mem_insertOrUpdate p k b m hp with h | h
  · exact Or.inl (by rw [h])
  · exact Or.inr (List.mem_map_of_mem _ h)

theorem keys_nodup_insertOrUpdate (k : κ) (b : β) (m : List (κ × β))
    (h : (m.map Prod.fst).Nodup) :
    ((insertOrUpdate k b m).map Prod.fst).Nodup := by
  induction m with
  | nil => simp [insertOrUpdate]
  | cons kv rest ih =>
      rw [List.map_cons, List.nodup_cons] at h
      by_cases hk : kv.1 = k
      · rw [insertOrUpdate, if_pos hk]
        refine List.nodup_cons.mpr ⟨?_, h.2⟩
        simpa [hk] using h.1
      · rw [insertOrUpdate, if_neg hk]
        refine List.nodup_cons.mpr ⟨?_, ih h.2⟩
        intro hmem
        rcases keys_insertOrUpdate_subset kv.1 k b rest hmem with h1 | h1
        · exact hk h1
        · exact h.1 h1

theorem lookupKey_eq_some_of_mem (m : List (κ × β)) (p : κ × β)
    (hnd : (m.map Prod.fst).Nodup) (hp : p ∈ m) :
    lookupKey p.1 m = some p.2 := by
  induction m with
  | nil => cases hp
  | cons kv rest ih =>
      rw [List.map_cons, List.nodup_cons] at hnd
      rcases List.mem_cons.mp hp with h | h
      · subst h
        simp [lookupKey]
      · have hne : kv.1 ≠ p.1 := by
          intro he
          exact hnd.1 (he ▸ List.mem_map_of_mem Prod.fst h)
        simp [lookupKey, hne, ih hnd.2 h]

theorem lookupKey_append (k : κ) (l1 l2 : List (κ × β)) :
    lookupKey k (l1 ++ l2) =
      match lookupKey k l1 with
      | some b => some b
      | none => lookupKey k l2 := by
  induction l1 with
  | nil => simp [lookupKey]
  | cons kv rest ih =>
      by_cases h : kv.1 = k
      · simp [lookupKey, h]
      · simp [lookupKey, h, ih]

theorem lookupKey_mergeKV (k : κ) (old new : List (κ × β)) :
    lookupKey k (mergeKV old new) =
      match lookupKey k new with
      | some b => some b
      | none => lookupKey k old := by
  rw [mergeKV, lookupKey_append]
  cases hnew : lookupKey k new with
  | some b =>
      have hfil : lookupKey k (old.filter (fun kv => (lookupKey kv.1 new).isNone)) = none := by
        induction old with
        | nil => simp [lookupKey]
        | cons kv rest ih =>
            by_cases hk : kv.1 = k
            · subst hk
              simp [List.filter_cons, hnew, ih]
            · by_cases hkeep : (lookupKey kv.1 new).isNone
              · simp [List.filter_cons, hkeep, lookupKey, hk, ih]
              · simp [List.filter_cons, hkeep, ih]
      rw [hfil]
  | none =>
      have hfil : lookupKey k (old.filter (fun kv => (lookupKey kv.1 new).isNone)) =
          lookupKey k old := by
        induction old with
        | nil => simp
        | cons kv rest ih =>
            by_cases hk : kv.1 = k
            · subst hk
              simp [List.filter_cons, hnew, lookupKey, ih]
            · by_cases hkeep : (lookupKey kv.1 new).isNone
              · simp [List.filter_cons, hkeep, lookupKey, hk, ih]
              · simp [List.filter_cons, hkeep, lookupKey, hk, ih]
      rw [hfil]
      cases lookupKey k old <;> rfl

end AssocHelpers

/-! ## C6 — concept-score normalization (normalizer.py, normalize_openalex_work lines 75-89) -/

/-- One element of the provider work's "concepts" array.  The `id` is the
full provider URL (or a bare id); a missing "score" key is `none`. -/
structure RawConcept where
  id : List Char
  display_name : List Char
  level : Option Int
  score : Option ℚ
deriving DecidableEq

/-- The value stored in the normalized concepts mapping. -/
structure ConceptEntry where
  name : List Char
  level : Option Int
  score : ℚ
deriving DecidableEq

/-- Python `s.split("/")[-1]`. -/
def lastSegment (s : List Char) : List Char := (s.splitOn '/').getLastD []

/-- One iteration of the loop over `work.get("concepts", [])`:
ids are shortened to their trailing segment; entries with empty id,
missing score, or score ≤ 0 are skipped; otherwise the entry is written
when its score beats the score already stored for that id (0.0 default). -/
def addConcept (m : List (List Char × ConceptEntry)) (c : RawConcept) :
    List (List Char × ConceptEntry) :=
  c.score.elim m (fun score =>
    if lastSegment c.id = [] ∨ score ≤ 0 then m
    else if ((lookupKey (lastSegment c.id) m).map ConceptEntry.score).getD 0 < score then
      insertOrUpdate (lastSegment c.id) ⟨c.display_name, c.level, score⟩ m
    else m)

/-- The concepts mapping produced by normalize_openalex_work. -/
def buildConceptsMap (cs : List RawConcept) : List (List Char × ConceptEntry) :=
  cs.foldl addConcept []

/-- Score of key `k` in a concepts mapping. -/
def scoreOf (m : List (List Char × ConceptEntry)) (k : List Char) : Option ℚ :=
  (lookupKey k m).map ConceptEntry.score

/-- Scalar shadow of `addConcept` at a fixed key `k`. -/
def updScore (o : Option ℚ) (c : RawConcept) (k : List Char) : Option ℚ :=
  c.score.elim o (fun s =>
    if lastSegment c.id = k then
      if lastSegment c.id = [] ∨ s ≤ 0 then o
      else if o.getD 0 < s then some s else o
    else o)

/-- Scalar shadow of the whole fold at a fixed key `k`. -/
def foldScore (k : List Char) (cs : List RawConcept) (o : Option ℚ) : Option ℚ :=
  cs.foldl (fun acc c => updScore acc c k) o

theorem scoreOf_addConcept (m : List (List Char × ConceptEntry))
    (c : RawConcept) (k : List Char) :
    scoreOf (addConcept m c) k = updScore (scoreOf m k) c k := by
  rw [addConcept, updScore]
  cases hs : c.score with
  | none => rfl
  | some s =>
      simp only [Option.elim]
      by_cases hdrop : lastSegment c.id = [] ∨ s ≤ 0
      · rw [if_pos hdrop]
        by_cases hid : lastSegment c.id = k
        · rw [if_pos hid, if_pos hdrop]
        · rw [if_neg hid]
      · rw [if_neg hdrop]
        have hgd : ((lookupKey (lastSegment c.id) m).map ConceptEntry.score).getD 0 =
            (scoreOf m (lastSegment c.id)).getD 0 := rfl
        by_cases hid : lastSegment c.id = k
        · rw [if_pos hid, if_neg hdrop]
          by_cases hlt : ((lookupKey (lastSegment c.id) m).map ConceptEntry.score).getD 0 < s
          · rw [if_pos hlt, if_pos (by rw [← hid]; exact hgd ▸ hlt)]
            rw [scoreOf, ← hid, lookupKey_insertOrUpdate_self]
            rfl
          · rw [if_neg hlt, if_neg (by rw [← hid]; exact fun hh => hlt (hgd ▸ hh))]
        · rw [if_neg hid]
          by_cases hlt : ((lookupKey (lastSegment c.id) m).map ConceptEntry.score).getD 0 < s
          · rw [if_pos hlt]
            rw [scoreOf,
              lookupKey_insertOrUpdate_ne (lastSegment c.id) k _ _ (fun he => hid he.symm)]
            rfl
          · rw [if_neg hlt]

theorem scoreOf_fold (cs : List RawConcept) (m : List (List Char × ConceptEntry))
    (k : List Char) :
    scoreOf (cs.foldl addConcept m) k = foldScore k cs (scoreOf m k) := by
  induction cs generalizing m with
  | nil => rfl
  | cons c rest ih =>
      rw [List.foldl_cons, ih (addConcept m c), scoreOf_addConcept]
      rfl

theorem updScore_some_pos (o : Option ℚ) (c : RawConcept) (k : List Char)
    (ho : ∀ s, o = some s → 0 < s) :
    ∀ s, updScore o c k = some s → 0 < s := by
  intro s hs
  rw [updScore] at hs
  cases hc : c.score with
  | none =>
      rw [hc] at hs
      exact ho s hs
  | some t =>
      rw [hc] at hs
      simp only [Option.elim] at hs
      by_cases hid : lastSegment c.id = k
      · rw [if_pos hid] at hs
        by_cases hdrop : lastSegment c.id = [] ∨ t ≤ 0
        · rw [if_pos hdrop] at hs
          exact ho s hs
        · rw [if_neg hdrop] at hs
          push_neg at hdrop
          by_cases hlt : o.getD 0 < t
          · rw [if_pos hlt] at hs
            cases hs
            exact hdrop.2
          · rw [if_neg hlt] at hs
            exact ho s hs
      · rw [if_neg hid] at hs
        exact ho s hs

theorem foldScore_pos (k : List Char) (cs : List RawConcept) :
    ∀ o : Option ℚ, (∀ s, o = some s → 0 < s) →
      ∀ s', foldScore k cs o = some s' → 0 < s' := by
  induction cs with
  | nil => intro o ho s' h; exact ho s' h
  | cons c rest ih =>
      intro o ho s' h
      rw [foldScore, List.foldl_cons] at h
      exact ih (updScore o c k) (updScore_some_pos o c k ho) s' h

theorem foldScore_attain (k : List Char) (cs : List RawConcept) :
    ∀ o : Option ℚ, ∀ s', foldScore k cs o = some s' →
      o = some s' ∨ ∃ c ∈ cs, lastSegment c.id = k ∧ c.score = some s' := by
  induction cs with
  | nil => intro o s' h; exact Or.inl h
  | cons c rest ih =>
      intro o s' h
      rw [foldScore, List.foldl_cons] at h
      rcases ih (updScore o c k) s' h with h1 | h1
      · rw [updScore] at h1
        cases hc : c.score with
        | none =>
            rw [hc] at h1
            exact Or.inl h1
        | some t =>
            rw [hc] at h1
            simp only [Option.elim] at h1
            by_cases hid : lastSegment c.id = k
            · rw [if_pos hid] at h1
              by_cases hdrop : lastSegment c.id = [] ∨ t ≤ 0
              · rw [if_pos hdrop] at h1
                exact Or.inl h1
              · rw [if_neg hdrop] at h1
                by_cases hlt : o.getD 0 < t
                · rw [if_pos hlt] at h1
                  cases h1
                  exact Or.inr ⟨c, List.mem_cons_self c rest, hid, hc⟩
                · rw [if_neg hlt] at h1
                  exact Or.inl h1
            · rw [if_neg hid] at h1
              exact Or.inl h1
      · rcases h1 with ⟨c', hc', hrest⟩
        exact Or.inr ⟨c', List.mem_cons_of_mem c hc', hrest⟩

theorem foldScore_mono (k : List Char) (cs : List RawConcept) :
    ∀ o : Option ℚ, ∀ s, o = some s →
      ∃ s', foldScore k cs o = some s' ∧ s ≤ s' := by
  induction cs with
  | nil => intro o s h; exact ⟨s, h, le_refl s⟩
  | cons c rest ih =>
      intro o s h
      rw [foldScore, List.foldl_cons]
      subst h
      rw [updScore]
      cases hc : c.score with
      | none => exact ih (some s) s rfl
      | some t =>
          simp only [Option.elim]
          by_cases hid : lastSegment c.id = k
          · rw [if_pos hid]
            by_cases hdrop : lastSegment c.id = [] ∨ t ≤ 0
            · rw [if_pos hdrop]
              exact ih (some s) s rfl
            · rw [if_neg hdrop]
              by_cases hlt : (Option.getD (some s) 0) < t
              · rw [if_pos hlt]
                rcases ih (some t) t rfl with ⟨s', hs', hle⟩
                exact ⟨s', hs', le_of_lt (lt_of_lt_of_le (by simpa using hlt) hle)⟩
              · rw [if_neg hlt]
                exact ih (some s) s rfl
          · rw [if_neg hid]
            exact ih (some s) s rfl

theorem foldScore_bound (k : List Char) (hk : k ≠ []) (cs : List RawConcept) :
    ∀ o : Option ℚ, (∀ s, o = some s → 0 < s) →
      ∀ c ∈ cs, lastSegment c.id = k → ∀ s, c.score = some s →
        ∀ s', foldScore k cs o = some s' → s ≤ s' := by
  induction cs with
  | nil => intro o _ c hc; cases hc
  | cons c0 rest ih =>
      intro o ho c hc hcid s hcs s' hfold
      rw [foldScore, List.foldl_cons] at hfold
      rcases List.mem_cons.mp hc with hc | hc
      · subst hc
        by_cases hspos : 0 < s
        · have hwrote : ∃ u, updScore o c k = some u ∧ s ≤ u := by
            rw [updScore, hcs]
            simp only [Option.elim]
            rw [if_pos hcid,
              if_neg (by push_neg; exact ⟨fun he => hk (hcid.symm.trans he), hspos⟩)]
            by_cases hlt : o.getD 0 < s
            · exact ⟨s, by rw [if_pos hlt], le_refl s⟩
            · rw [if_neg hlt]
              push_neg at hlt
              cases o with
              | none => exact absurd hspos (not_lt.mpr (by simpa using hlt))
              | some v => exact ⟨v, rfl, by simpa using hlt⟩
          rcases hwrote with ⟨u, hu, hsu⟩
          rw [hu] at hfold
          have hsame : foldScore k rest (some u) = some s' := hfold
          rcases foldScore_mono k rest (some u) u rfl with ⟨s'', hs'', huv⟩
          rw [hsame] at hs''
          cases hs''
          exact le_trans hsu huv
        · push_neg at hspos
          have h0 : 0 < s' :=
            foldScore_pos k rest (updScore o c k) (updScore_some_pos o c k ho) s' hfold
          exact le_trans hspos (le_of_lt h0)
      · exact ih (updScore o c0 k) (updScore_some_pos o c0 k ho) c hc hcid s hcs s' hfold

theorem foldScore_empty_key (cs : List RawConcept) :
    ∀ o : Option ℚ, foldScore [] cs o = o := by
  induction cs with
  | nil => intro o; rfl
  | cons c rest ih =>
      intro o
      rw [foldScore, List.foldl_cons]
      have hupd : updScore o c [] = o := by
        rw [updScore]
        cases c.score with
        | none => rfl
        | some t =>
            simp only [Option.elim]
            by_cases hid : lastSegment c.id = []
            · rw [if_pos hid, if_pos (Or.inl hid)]
            · rw [if_neg hid]
      rw [hupd]
      exact ih o

theorem buildConceptsMap_keys_nodup (cs : List RawConcept) :
    ((buildConceptsMap cs).map Prod.fst).Nodup := by
  suffices h : ∀ m : List (List Char × ConceptEntry), (m.map Prod.fst).Nodup →
      ((cs.foldl addConcept m).map Prod.fst).Nodup by
    exact h [] (by simp)
  induction cs with
  | nil => intro m hm; exact hm
  | cons c rest ih =>
      intro m hm
      rw [List.foldl_cons]
      refine ih (addConcept m c) ?_
      rw [addConcept]
      cases c.score with
      | none => exact hm
      | some s =>
          simp only [Option.elim]
          by_cases hdrop : lastSegment c.id = [] ∨ s ≤ 0
          · rw [if_pos hdrop]; exact hm
          · rw [if_neg hdrop]
            by_cases hlt : ((lookupKey (lastSegment c.id) m).map ConceptEntry.score).getD 0 < s
            · rw [if_pos hlt]
              exact keys_nodup_insertOrUpdate _ _ _ hm
            · rw [if_neg hlt]; exact hm

/-- C6 counterexample: a provider concept with score 2 is kept with score 2,
so the produced concepts mapping is not confined to scores in (0, 1]. -/
theorem concept_scores_counterexample :
    ¬ (∀ p ∈ buildConceptsMap
        [{ id := "https://openalex.org/C1".toList, display_name := "x".toList,
           level := some 0, score := some 2 }],
        0 < p.2.score ∧ p.2.score ≤ 1) := by
  decide

/-- C6 amended: every entry of the concepts mapping produced by
normalize_openalex_work has a strictly positive score (entries with missing,
zero, or negative scores are dropped), on duplicate concept ids the maximum
score is kept (the stored score is attained by some occurrence and bounds
every occurrence), and the scores lie in (0, 1] whenever all provider-supplied
scores are at most 1 — but the code itself never clamps scores above 1. -/
theorem concept_scores_amended (cs : List RawConcept) :
    (∀ p ∈ buildConceptsMap cs,
        0 < p.2.score ∧
        (∃ c ∈ cs, lastSegment c.id = p.1 ∧ c.score = some p.2.score) ∧
        (∀ c ∈ cs, lastSegment c.id = p.1 → ∀ s, c.score = some s → s ≤ p.2.score)) ∧
    ((∀ c ∈ cs, c.score.getD 0 ≤ 1) →
        ∀ p ∈ buildConceptsMap cs, 0 < p.2.score ∧ p.2.score ≤ 1) := by
  have hmain : ∀ p ∈ buildConceptsMap cs,
      0 < p.2.score ∧
      (∃ c ∈ cs, lastSegment c.id = p.1 ∧ c.score = some p.2.score) ∧
      (∀ c ∈ cs, lastSegment c.id = p.1 → ∀ s, c.score = some s → s ≤ p.2.score) := by
    intro p hp
    have hlk : lookupKey p.1 (buildConceptsMap cs) = some p.2 :=
      lookupKey_eq_some_of_mem _ p (buildConceptsMap_keys_nodup cs) hp
    have hsc : scoreOf (buildConceptsMap cs) p.1 = some p.2.score := by
      rw [scoreOf, hlk]
      rfl
    have hfold : foldScore p.1 cs none = some p.2.score := by
      rw [← hsc, buildConceptsMap, scoreOf_fold]
      rfl
    have hnone : ∀ s : ℚ, (none : Option ℚ) = some s → 0 < s := by
      intro s h; cases h
    have hkey : p.1 ≠ [] := by
      intro h
      rw [h, foldScore_empty_key] at hfold
      cases hfold
    refine ⟨foldScore_pos p.1 cs none hnone p.2.score hfold, ?_, ?_⟩
    · rcases foldScore_attain p.1 cs none p.2.score hfold with h | h
      · cases h
      · exact h
    · intro c hc hcid s hcs
      exact foldScore_bound p.1 hkey cs none hnone c hc hcid s hcs p.2.score hfold
  refine ⟨hmain, ?_⟩
  intro hbound p hp
  rcases hmain p hp with ⟨hpos, ⟨c, hc, _, hcs⟩, _⟩
  refine ⟨hpos, ?_⟩
  have := hbound c hc
  rw [hcs] at this
  simpa using this

/-- Concrete instantiation of the amended concept-score theorem: a concept
with score 1 is kept, its duplicate with a negative score and a concept with
a missing score are dropped, and the stored score lies in (0, 1]. -/
theorem concept_scores_amended_witness :
    (0 : ℚ) < 1 ∧ (1 : ℚ) ≤ 1 := by
  have h := (concept_scores_amended
    [{ id := "https://openalex.org/C1".toList, display_name := "x".toList,
       level := some 0, score := some 1 },
     { id := "https://openalex.org/C1".toList, display_name := "x".toList,
       level := some 0, score := some (-1) },
     { id := "https://openalex.org/C2".toList, display_name := "y".toList,
       level := some 1, score := none }]).2 (by decide)
  exact h ("C1".toList, ⟨"x".toList, some 0, 1⟩) (by decide)

/-! ## C3 — direct paper search (semantic/search.py, search_papers lines 79-141) -/

/-- One row of the SQL result joining paper_embeddings with papers: the
pgvector expression `embedding_vec <-> query` is the row's distance. -/
structure EmbRow where
  paper_id : Nat
  title : String
  abstract : Option String
  external_ids : List (String × String)
  source_id : Option String
  distance : ℚ
deriving DecidableEq

/-- One record of the search_papers result list. -/
structure PaperHit where
  paper_id : Nat
  title : String
  abstract : Option String
  external_ids : List (String × String)
  source_id : Option String
  distance : ℚ
  similarity : ℚ
deriving DecidableEq

/-- search.py, _cosine_distance_to_score: score = 1 / (1 + distance). -/
def cosineDistanceToScore (distance : ℚ) : ℚ := 1 / (1 + distance)

def rowLeByDistance (a b : EmbRow) : Bool := decide (a.distance ≤ b.distance)

/-- search.py, search_papers: the SQL orders rows ascending by distance and
applies OFFSET/LIMIT; each fetched row is mapped to a result record with
similarity = _cosine_distance_to_score(distance). -/
def searchPapers (table : List EmbRow) (limit offset : Nat) : List PaperHit :=
  (((sortBy rowLeByDistance table).drop offset).take limit).map fun r =>
    { paper_id := r.paper_id, title := r.title, abstract := r.abstract,
      external_ids := r.external_ids, source_id := r.source_id,
      distance := r.distance, similarity := cosineDistanceToScore r.distance }

/-- C3: for every table, limit K and offset, search_papers returns at most K
records, ordered ascending by distance; each record's similarity equals
1 / (1 + distance); the similarity sequence is monotonically non-increasing
and (given nonnegative distances) every similarity lies in (0, 1]. -/
theorem search_papers_results (table : List EmbRow) (limit offset : Nat)
    (hd : ∀ r ∈ table, 0 ≤ r.distance) :
    (searchPapers table limit offset).length ≤ limit ∧
    (searchPapers table limit offset).Pairwise (fun a b => a.distance ≤ b.distance) ∧
    (∀ p ∈ searchPapers table limit offset, p.similarity = 1 / (1 + p.distance)) ∧
    (searchPapers table limit offset).Pairwise (fun a b => b.similarity ≤ a.similarity) ∧
    (∀ p ∈ searchPapers table limit offset, 0 < p.similarity ∧ p.similarity ≤ 1) := by
  have hsub : List.Sublist (((sortBy rowLeByDistance table).drop offset).take limit)
      (sortBy rowLeByDistance table) :=
    (List.take_sublist _ _).trans (List.drop_sublist _ _)
  have hmem : ∀ r ∈ ((sortBy rowLeByDistance table).drop offset).take limit,
      r ∈ table := by
    intro r hr
    exact (sortBy_perm rowLeByDistance table).mem_iff.mp (hsub.subset hr)
  have hsorted : (((sortBy rowLeByDistance table).drop offset).take limit).Pairwise
      (fun a b => a.distance ≤ b.distance) := by
    have h1 : (sortBy rowLeByDistance table).Pairwise
        (fun a b => rowLeByDistance a b = true) := by
      refine sortBy_pairwise rowLeByDistance ?_ ?_ table
      · intro a b hab
        rw [rowLeByDistance] at hab ⊢
        rw [decide_eq_true_eq]
        rcases le_total a.distance b.distance with h | h
        · exact absurd (decide_eq_true h) (by rw [hab]; exact Bool.false_ne_true)
        · exact h
      · intro a b c hab hbc
        rw [rowLeByDistance, decide_eq_true_eq] at hab hbc ⊢
        exact le_trans hab hbc
    have h2 : (sortBy rowLeByDistance table).Pairwise
        (fun a b => a.distance ≤ b.distance) := by
      refine h1.imp ?_
      intro a b hab
      rw [rowLeByDistance, decide_eq_true_eq] at hab
      exact hab
    exact h2.sublist hsub
  have hmemres : ∀ p ∈ searchPapers table limit offset,
      ∃ r ∈ table, p.distance = r.distance ∧
        p.similarity = cosineDistanceToScore r.distance := by
    intro p hp
    rcases List.mem_map.mp hp with ⟨r, hr, rfl⟩
    exact ⟨r, hmem r hr, rfl, rfl⟩
  refine ⟨?_, ?_, ?_, ?_, ?_⟩
  · rw [searchPapers, List.length_map]
    exact List.length_take_le _ _
  · rw [searchPapers, List.pairwise_map]
    exact hsorted
  · intro p hp
    rcases List.mem_map.mp hp with ⟨r, _, rfl⟩
    rfl
  · rw [searchPapers, List.pairwise_map]
    refine List.Pairwise.imp_of_mem ?_ hsorted
    intro a b ha hb hab
    have h0a : 0 ≤ a.distance := hd a (hmem a ha)
    have hpos : (0 : ℚ) < 1 + a.distance := by linarith
    show cosineDistanceToScore b.distance ≤ cosineDistanceToScore a.distance
    rw [cosineDistanceToScore, cosineDistanceToScore]
    exact one_div_le_one_div_of_le hpos (by linarith)
  · intro p hp
    rcases hmemres p hp with ⟨r, hr, _, hsim⟩
    have h0 : 0 ≤ r.distance := hd r hr
    have hpos : (0 : ℚ) < 1 + r.distance := by linarith
    rw [hsim, cosineDistanceToScore]
    constructor
    · positivity
    · rw [div_le_one hpos]
      linarith

/-- Concrete instantiation of the search_papers theorem on a two-row store
with limit 1. -/
theorem search_papers_results_witness :
    (searchPapers [⟨1, "A", none, [], none, 0⟩, ⟨2, "B", none, [], none, 1⟩] 1 0).length ≤ 1 ∧
    (∀ p ∈ searchPapers [⟨1, "A", none, [], none, 0⟩, ⟨2, "B", none, [], none, 1⟩] 1 0,
      0 < p.similarity ∧ p.similarity ≤ 1) := by
  have h := search_papers_results
    [⟨1, "A", none, [], none, 0⟩, ⟨2, "B", none, [], none, 1⟩] 1 0 (by decide)
  exact ⟨h.1, h.2.2.2.2⟩

/-! ## C10 — empty-query behaviour
(server/search/semantic.py, semantic_search lines 79-171, and
server/semantic/search.py, search_papers lines 79-141 / _embed_query 62-67) -/

/-- One row of the legacy search stack (paper_embeddings joined to papers). -/
structure LegacyPaperRow where
  paper_id : Nat
  title : String
  abstract : Option String
  year : Option Int
  doi : Option String
  model_name : String
  embedding : List ℚ
deriving DecidableEq

/-- server/search/semantic.py, SearchResult. -/
structure LegacySearchResult where
  paper_id : Nat
  title : String
  abstract : Option String
  year : Option Int
  doi : Option String
  score : ℚ
deriving DecidableEq

def legacyResultLe (a b : LegacySearchResult) : Bool := decide (b.score ≤ a.score)

/-- server/search/semantic.py, semantic_search.  `scoreFn` abstracts
_cosine_similarity (whose float sqrt has no exact rational form) and `embed`
abstracts the encoder; the second component counts encoder invocations.
The guard `if not query or not query.strip(): return []` precedes the
encoder call; afterwards rows of the requested model are scored, filtered by
min_score, sorted descending by score, and truncated to top_k. -/
def semanticSearch (scoreFn : List ℚ → List ℚ → ℚ) (embed : List Char → List ℚ)
    (table : List LegacyPaperRow) (query : List Char) (model_name : String)
    (top_k : Nat) (min_score : ℚ) : List LegacySearchResult × Nat :=
  if query = [] ∨ pyStrip query = [] then ([], 0)
  else
    let q := embed (pyStrip query)
    let rows := table.filter (fun r => r.model_name = model_name)
    let results := (rows.map fun r =>
      ({ paper_id := r.paper_id, title := r.title, abstract := r.abstract,
         year := r.year, doi := r.doi,
         score := scoreFn q r.embedding } : LegacySearchResult)).filter
      (fun res => min_score ≤ res.score)
    ((sortBy legacyResultLe results).take top_k, 1)

/-- server/semantic/search.py, search_papers: `_embed_query(query)` runs
unconditionally before the SQL (there is no empty-query guard), so exactly
one encoder call happens for every query; the row distances (computed by the
store against that embedding) are the table input, as in `searchPapers`. -/
def searchPapersTrace (table : List EmbRow) (query : List Char)
    (limit offset : Nat) : List PaperHit × Nat :=
  (searchPapers table limit offset, 1)

/-- C10 counterexample: on the empty query, search_papers of
server/semantic/search.py still invokes the encoder once and, over a
one-row store, returns a non-empty result — not the guarded empty result the
claim describes. -/
theorem empty_query_counterexample :
    (searchPapersTrace [⟨1, "A", none, [], none, 0⟩] [] 10 0).2 = 1 ∧
    (searchPapersTrace [⟨1, "A", none, [], none, 0⟩] [] 10 0).1 ≠ [] := by
  constructor
  · rfl
  · simp [searchPapersTrace, searchPapers, sortBy, insertBy]

/-- C10 amended: the legacy semantic_search (server/search/semantic.py)
returns an empty result for an empty or whitespace-only query without
invoking the encoder; but the pgvector search_papers
(server/semantic/search.py) has no such guard and invokes the encoder exactly
once for every query, including the empty one. -/
theorem empty_query_amended (scoreFn : List ℚ → List ℚ → ℚ)
    (embed : List Char → List ℚ) (ltable : List LegacyPaperRow)
    (table : List EmbRow) (query : List Char) (model_name : String)
    (top_k : Nat) (min_score : ℚ) (limit offset : Nat) :
    (query = [] ∨ pyStrip query = [] →
      semanticSearch scoreFn embed ltable query model_name top_k min_score = ([], 0)) ∧
    (searchPapersTrace table query limit offset).2 = 1 := by
  constructor
  · intro h
    rw [semanticSearch, if_pos h]
  · rfl

/-- Concrete instantiation of the amended empty-query theorem at the
whitespace-only query " ". -/
theorem empty_query_amended_witness :
    semanticSearch (fun _ _ => 0) (fun _ => [])
      [⟨1, "A", none, none, none, "m", []⟩] (" ".toList) "m" 10 0 = ([], 0) ∧
    (searchPapersTrace [⟨1, "A", none, [], none, 0⟩] (" ".toList) 10 0).2 = 1 := by
  have h := empty_query_amended (fun _ _ => 0) (fun _ => [])
    [⟨1, "A", none, none, none, "m", []⟩] [⟨1, "A", none, [], none, 0⟩]
    (" ".toList) "m" 10 0 10 0
  exact ⟨h.1 (by decide), h.2⟩

/-! ## C5 — provider retry policy (ingestion/openalex/client.py, _get lines 17-74) -/

/-- An HTTP response as seen by the retry loop.  `retryAfter` is the
Retry-After header: `none` = absent, `some none` = present but not parseable
as a float, `some (some q)` = parseable with value `q`. -/
structure HttpResponse where
  status : Nat
  retryAfter : Option (Option ℚ)
  body : String
deriving DecidableEq

inductive GetOutcome where
  | success (body : String)
  | httpError (status : Nat)
  | runtimeError
deriving DecidableEq

structure GetTrace where
  requests : Nat
  sleeps : List ℚ
  outcome : GetOutcome
deriving DecidableEq

/-- A response the loop retries on: 429 or any 5xx. -/
def retryable (r : HttpResponse) : Prop :=
  r.status = 429 ∨ (500 ≤ r.status ∧ r.status < 600)

instance (r : HttpResponse) : Decidable (retryable r) := by
  unfold retryable
  infer_instance

/-- requests.Response.raise_for_status followed by .json(): an exception for
status in [400, 600), the parsed body otherwise. -/
def raiseForStatus (r : HttpResponse) : GetOutcome :=
  if 400 ≤ r.status ∧ r.status < 600 then .httpError r.status else .success r.body

/-- Sleep chosen on a 429: the parseable Retry-After value if any, else the
current backoff delay. -/
def sleepFor429 (r : HttpResponse) (delay : ℚ) : ℚ :=
  match r.retryAfter with
  | some (some q) => q
  | some none => delay
  | none => delay

/-- Sleep on the k-th retry: Retry-After only for a 429, the backoff delay
otherwise. -/
def sleepOf (r : HttpResponse) (delay : ℚ) : ℚ :=
  if r.status = 429 then sleepFor429 r delay else delay

/-- Exhausted retries: `last_resp.raise_for_status()` (RuntimeError if no
request was ever made). -/
def lastOutcome : Option HttpResponse → GetOutcome
  | some r => raiseForStatus r
  | none => GetOutcome.runtimeError

/-- client.py, _get retry loop.  `resp attempt` is the response to the
attempt-th request (1-based); arguments are the current attempt number, the
remaining attempts, the current backoff delay and the last response seen.
Each 429 sleeps Retry-After (if parseable) or the delay, each 5xx sleeps the
delay; both multiply the delay by 1.5 and continue; any other status leaves
the loop through raise_for_status / json. -/
def getLoop (resp : Nat → HttpResponse) :
    Nat → Nat → ℚ → Option HttpResponse → GetTrace
  | _attempt, 0, _delay, last => ⟨0, [], lastOutcome last⟩
  | attempt, rem + 1, delay, last =>
      let r := resp attempt
      if r.status = 429 then
        let t := getLoop resp (attempt + 1) rem (delay * (3/2)) (some r)
        ⟨t.requests + 1, sleepFor429 r delay :: t.sleeps, t.outcome⟩
      else if 500 ≤ r.status ∧ r.status < 600 then
        let t := getLoop resp (attempt + 1) rem (delay * (3/2)) (some r)
        ⟨t.requests + 1, delay :: t.sleeps, t.outcome⟩
      else
        ⟨1, [], raiseForStatus r⟩

/-- client.py, _get: MAX_RETRIES = 5, INITIAL_DELAY = 1.0, first attempt 1. -/
def oaGet (resp : Nat → HttpResponse) : GetTrace := getLoop resp 1 5 1 none

theorem getLoop_zero (resp : Nat → HttpResponse) (attempt : Nat) (delay : ℚ)
    (last : Option HttpResponse) :
    getLoop resp attempt 0 delay last = ⟨0, [], lastOutcome last⟩ := rfl

theorem getLoop_succ_429 (resp : Nat → HttpResponse) (attempt rem : Nat)
    (delay : ℚ) (last : Option HttpResponse)
    (h : (resp attempt).status = 429) :
    getLoop resp attempt (rem + 1) delay last =
      ⟨(getLoop resp (attempt + 1) rem (delay * (3/2)) (some (resp attempt))).requests + 1,
       sleepFor429 (resp attempt) delay ::
         (getLoop resp (attempt + 1) rem (delay * (3/2)) (some (resp attempt))).sleeps,
       (getLoop resp (attempt + 1) rem (delay * (3/2)) (some (resp attempt))).outcome⟩ := by
  simp [getLoop, h]

theorem getLoop_succ_5xx (resp : Nat → HttpResponse) (attempt rem : Nat)
    (delay : ℚ) (last : Option HttpResponse)
    (hn : ¬ (resp attempt).status = 429)
    (h5 : 500 ≤ (resp attempt).status ∧ (resp attempt).status < 600) :
    getLoop resp attempt (rem + 1) delay last =
      ⟨(getLoop resp (attempt + 1) rem (delay * (3/2)) (some (resp attempt))).requests + 1,
       delay :: (getLoop resp (attempt + 1) rem (delay * (3/2)) (some (resp attempt))).sleeps,
       (getLoop resp (attempt + 1) rem (delay * (3/2)) (some (resp attempt))).outcome⟩ := by
  simp [getLoop, hn, h5]

theorem getLoop_succ_stop (resp : Nat → HttpResponse) (attempt rem : Nat)
    (delay : ℚ) (last : Option HttpResponse)
    (hnr : ¬ retryable (resp attempt)) :
    getLoop resp attempt (rem + 1) delay last =
      ⟨1, [], raiseForStatus (resp attempt)⟩ := by
  rw [retryable] at hnr
  push_neg at hnr
  simp [getLoop, hnr.1]
  intro h5a
  exact hnr.2 h5a

theorem raiseForStatus_retryable (r : HttpResponse) (h : retryable r) :
    raiseForStatus r = GetOutcome.httpError r.status := by
  rw [raiseForStatus, if_pos ?_]
  rcases h with h | h
  · omega
  · omega

theorem getLoop_requests_le (resp : Nat → HttpResponse) :
    ∀ rem attempt (delay : ℚ) last,
      (getLoop resp attempt rem delay last).requests ≤ rem := by
  intro rem
  induction rem with
  | zero => intro attempt delay last; exact Nat.le_refl 0
  | succ rem ih =>
      intro attempt delay last
      by_cases h429 : (resp attempt).status = 429
      · rw [getLoop_succ_429 resp attempt rem delay last h429]
        exact Nat.succ_le_succ (ih (attempt + 1) (delay * (3/2)) (some (resp attempt)))
      · by_cases h5 : 500 ≤ (resp attempt).status ∧ (resp attempt).status < 600
        · rw [getLoop_succ_5xx resp attempt rem delay last h429 h5]
          exact Nat.succ_le_succ (ih (attempt + 1) (delay * (3/2)) (some (resp attempt)))
        · rw [getLoop_succ_stop resp attempt rem delay last (by rw [retryable]; tauto)]
          exact Nat.succ_le_succ (Nat.zero_le rem)

theorem getLoop_sleeps (resp : Nat → HttpResponse) :
    ∀ rem attempt (delay : ℚ) last k,
      k < (getLoop resp attempt rem delay last).sleeps.length →
      retryable (resp (attempt + k)) ∧
      (getLoop resp attempt rem delay last).sleeps.get? k =
        some (sleepOf (resp (attempt + k)) (delay * (3/2 : ℚ) ^ k)) := by
  intro rem
  induction rem with
  | zero =>
      intro attempt delay last k hk
      simp [getLoop_zero] at hk
  | succ rem ih =>
      intro attempt delay last k hk
      by_cases h429 : (resp attempt).status = 429
      · rw [getLoop_succ_429 resp attempt rem delay last h429] at hk ⊢
        cases k with
        | zero =>
            refine ⟨Or.inl (by simpa using h429), ?_⟩
            have hval : sleepOf (resp (attempt + 0)) (delay * (3/2 : ℚ) ^ 0) =
                sleepFor429 (resp attempt) delay := by
              rw [pow_zero, mul_one, Nat.add_zero, sleepOf, if_pos h429]
            rw [hval]
            rfl
        | succ k =>
            have hk' : k < (getLoop resp (attempt + 1) rem (delay * (3/2))
                (some (resp attempt))).sleeps.length := by
              simpa using Nat.lt_of_succ_lt_succ (by simpa using hk)
            rcases ih (attempt + 1) (delay * (3/2)) (some (resp attempt)) k hk' with ⟨hr, hv⟩
            have hidx : attempt + 1 + k = attempt + (k + 1) := by omega
            have hdel : delay * (3/2 : ℚ) * (3/2 : ℚ) ^ k =
                delay * (3/2 : ℚ) ^ (k + 1) := by ring
            rw [hidx] at hr
            rw [hidx, hdel] at hv
            exact ⟨hr, hv⟩
      · by_cases h5 : 500 ≤ (resp attempt).status ∧ (resp attempt).status < 600
        · rw [getLoop_succ_5xx resp attempt rem delay last h429 h5] at hk ⊢
          cases k with
          | zero =>
              refine ⟨Or.inr h5, ?_⟩
              have hval : sleepOf (resp (attempt + 0)) (delay * (3/2 : ℚ) ^ 0) = delay := by
                rw [pow_zero, mul_one, Nat.add_zero, sleepOf, if_neg h429]
              rw [hval]
              rfl
          | succ k =>
              have hk' : k < (getLoop resp (attempt + 1) rem (delay * (3/2))
                  (some (resp attempt))).sleeps.length := by
                simpa using Nat.lt_of_succ_lt_succ (by simpa using hk)
              rcases ih (attempt + 1) (delay * (3/2)) (some (resp attempt)) k hk' with ⟨hr, hv⟩
              have hidx : attempt + 1 + k = attempt + (k + 1) := by omega
              have hdel : delay * (3/2 : ℚ) * (3/2 : ℚ) ^ k =
                  delay * (3/2 : ℚ) ^ (k + 1) := by ring
              rw [hidx] at hr
              rw [hidx, hdel] at hv
              exact ⟨hr, hv⟩
        · rw [getLoop_succ_stop resp attempt rem delay last (by rw [retryable]; tauto)] at hk
          simp at hk

theorem getLoop_stop (resp : Nat → HttpResponse) :
    ∀ rem attempt (delay : ℚ) last n, n < rem →
      (∀ j, j < n → retryable (resp (attempt + j))) →
      ¬ retryable (resp (attempt + n)) →
      (getLoop resp attempt rem delay last).requests = n + 1 ∧
      (getLoop resp attempt rem delay last).sleeps.length = n ∧
      (getLoop resp attempt rem delay last).outcome = raiseForStatus (resp (attempt + n)) := by
  intro rem
  induction rem with
  | zero => intro attempt delay last n hn; omega
  | succ rem ih =>
      intro attempt delay last n hn hall hstop
      cases n with
      | zero =>
          rw [Nat.add_zero] at hstop
          rw [getLoop_succ_stop resp attempt rem delay last hstop]
          exact ⟨rfl, rfl, by rw [Nat.add_zero]⟩
      | succ n =>
          have hret : retryable (resp attempt) := by
            simpa using hall 0 (Nat.succ_pos n)
          have hall' : ∀ j, j < n → retryable (resp (attempt + 1 + j)) := by
            intro j hj
            have := hall (j + 1) (by omega)
            rwa [show attempt + (j + 1) = attempt + 1 + j by omega] at this
          have hstop' : ¬ retryable (resp (attempt + 1 + n)) := by
            rwa [show attempt + 1 + n = attempt + (n + 1) by omega]
          have hrec := ih (attempt + 1) (delay * (3/2)) (some (resp attempt)) n
            (by omega) hall' hstop'
          have hidx : attempt + 1 + n = attempt + (n + 1) := by omega
          rcases hret with h429 | h5
          · rw [getLoop_succ_429 resp attempt rem delay last h429]
            refine ⟨by rw [hrec.1], by simpa using hrec.2.1, ?_⟩
            rw [show (⟨(getLoop resp (attempt + 1) rem (delay * (3/2)) (some (resp attempt))).requests + 1,
              sleepFor429 (resp attempt) delay ::
                (getLoop resp (attempt + 1) rem (delay * (3/2)) (some (resp attempt))).sleeps,
              (getLoop resp (attempt + 1) rem (delay * (3/2)) (some (resp attempt))).outcome⟩ : GetTrace).outcome =
              (getLoop resp (attempt + 1) rem (delay * (3/2)) (some (resp attempt))).outcome from rfl]
            rw [hrec.2.2, hidx]
          · have hn429 : ¬ (resp attempt).status = 429 := by omega
            rw [getLoop_succ_5xx resp attempt rem delay last hn429 h5]
            refine ⟨by rw [hrec.1], by simpa using hrec.2.1, ?_⟩
            rw [show (⟨(getLoop resp (attempt + 1) rem (delay * (3/2)) (some (resp attempt))).requests + 1,
              delay :: (getLoop resp (attempt + 1) rem (delay * (3/2)) (some (resp attempt))).sleeps,
              (getLoop resp (attempt + 1) rem (delay * (3/2)) (some (resp attempt))).outcome⟩ : GetTrace).outcome =
              (getLoop resp (attempt + 1) rem (delay * (3/2)) (some (resp attempt))).outcome from rfl]
            rw [hrec.2.2, hidx]

theorem getLoop_exhaust (resp : Nat → HttpResponse) :
    ∀ rem attempt (delay : ℚ) last,
      (∀ j, j < rem → retryable (resp (attempt + j))) →
      (getLoop resp attempt rem delay last).requests = rem ∧
      (getLoop resp attempt rem delay last).sleeps.length = rem ∧
      (getLoop resp attempt rem delay last).outcome =
        (if rem = 0 then lastOutcome last
         else raiseForStatus (resp (attempt + rem - 1))) := by
  intro rem
  induction rem with
  | zero => intro attempt delay last _; exact ⟨rfl, rfl, rfl⟩
  | succ rem ih =>
      intro attempt delay last hall
      have hret : retryable (resp attempt) := by
        simpa using hall 0 (Nat.succ_pos rem)
      have hall' : ∀ j, j < rem → retryable (resp (attempt + 1 + j)) := by
        intro j hj
        have := hall (j + 1) (by omega)
        rwa [show attempt + (j + 1) = attempt + 1 + j by omega] at this
      have hrec := ih (attempt + 1) (delay * (3/2)) (some (resp attempt)) hall'
      have hout : (getLoop resp (attempt + 1) rem (delay * (3/2)) (some (resp attempt))).outcome =
          raiseForStatus (resp (attempt + (rem + 1) - 1)) := by
        rw [hrec.2.2]
        by_cases h0 : rem = 0
        · subst h0
          simp [lastOutcome]
        · rw [if_neg h0, show attempt + 1 + rem - 1 = attempt + (rem + 1) - 1 by omega]
      rcases hret with h429 | h5
      · rw [getLoop_succ_429 resp attempt rem delay last h429]
        refine ⟨by simpa using hrec.1, by simpa using hrec.2.1, ?_⟩
        rw [if_neg (Nat.succ_ne_zero rem)]
        exact hout
      · have hn429 : ¬ (resp attempt).status = 429 := by omega
        rw [getLoop_succ_5xx resp attempt rem delay last hn429 h5]
        refine ⟨by simpa using hrec.1, by simpa using hrec.2.1, ?_⟩
        rw [if_neg (Nat.succ_ne_zero rem)]
        exact hout

/-- C5: the provider client's _get makes at most 5 attempts; every retry
follows a 429 (sleeping the parseable Retry-After value if present, else the
backoff delay 1.0 * 1.5^k) or a 5xx (sleeping the backoff delay, ignoring
Retry-After); the first attempt with any other status ends the loop there
with raise_for_status semantics: 2xx returns the parsed body and 4xx other
than 429 raises immediately with no further request and no sleep; five
retryable responses exhaust the budget and raise the last response's error. -/
theorem provider_get_retry_policy (resp : Nat → HttpResponse) :
    (oaGet resp).requests ≤ 5 ∧
    (∀ k, k < (oaGet resp).sleeps.length →
      retryable (resp (k + 1)) ∧
      (oaGet resp).sleeps.get? k = some (sleepOf (resp (k + 1)) ((3/2 : ℚ) ^ k))) ∧
    (∀ n, 1 ≤ n → n ≤ 5 →
      (∀ j, 1 ≤ j → j < n → retryable (resp j)) → ¬ retryable (resp n) →
      (oaGet resp).requests = n ∧ (oaGet resp).sleeps.length = n - 1 ∧
      (oaGet resp).outcome = raiseForStatus (resp n)) ∧
    ((∀ j, 1 ≤ j → j ≤ 5 → retryable (resp j)) →
      (oaGet resp).requests = 5 ∧ (oaGet resp).sleeps.length = 5 ∧
      (oaGet resp).outcome = GetOutcome.httpError (resp 5).status) ∧
    (∀ r : HttpResponse, 200 ≤ r.status → r.status < 300 →
      raiseForStatus r = GetOutcome.success r.body) ∧
    (∀ r : HttpResponse, 400 ≤ r.status → r.status < 500 → r.status ≠ 429 →
      raiseForStatus r = GetOutcome.httpError r.status) := by
  refine ⟨getLoop_requests_le resp 5 1 1 none, ?_, ?_, ?_, ?_, ?_⟩
  · intro k hk
    rcases getLoop_sleeps resp 5 1 1 none k hk with ⟨hr, hv⟩
    rw [show 1 + k = k + 1 by omega] at hr hv
    rw [one_mul] at hv
    exact ⟨hr, hv⟩
  · intro n h1 h5 hall hstop
    have hall' : ∀ j, j < n - 1 → retryable (resp (1 + j)) := by
      intro j hj
      exact hall (1 + j) (by omega) (by omega)
    have hstop' : ¬ retryable (resp (1 + (n - 1))) := by
      rwa [show 1 + (n - 1) = n by omega]
    have h := getLoop_stop resp 5 1 1 none (n - 1) (by omega) hall' hstop'
    rw [show 1 + (n - 1) = n by omega] at h
    refine ⟨?_, ?_, h.2.2⟩
    · show (getLoop resp 1 5 1 none).requests = n
      rw [h.1]
      omega
    · show (getLoop resp 1 5 1 none).sleeps.length = n - 1
      rw [h.2.1]
  · intro hall
    have hall' : ∀ j, j < 5 → retryable (resp (1 + j)) := by
      intro j hj
      exact hall (1 + j) (by omega) (by omega)
    have h := getLoop_exhaust resp 5 1 1 none hall'
    refine ⟨h.1, h.2.1, ?_⟩
    show (getLoop resp 1 5 1 none).outcome = GetOutcome.httpError (resp 5).status
    rw [h.2.2, if_neg (by omega : (5 : Nat) ≠ 0)]
    rw [show 1 + 5 - 1 = 5 by omega]
    exact raiseForStatus_retryable _ (hall 5 (by omega) (by omega))
  · intro r h2 h3
    rw [raiseForStatus, if_neg (by omega)]
  · intro r h4 h5 _
    rw [raiseForStatus, if_pos (by omega)]

/-- Concrete responses exercising the retry theorem: attempt 1 is a 429 with
a parseable Retry-After of 7, attempt 2 succeeds with body "ok". -/
def retryDemoResp : Nat → HttpResponse :=
  fun k => if k = 1 then ⟨429, some (some 7), "x"⟩ else ⟨200, none, "ok"⟩

/-- All-503 responses exhausting the retry budget. -/
def retryDemoResp503 : Nat → HttpResponse := fun _ => ⟨503, none, "bad"⟩

/-- Concrete instantiation of the retry-policy theorem: a 429 followed by a
200 makes exactly two requests, honors Retry-After = 7, and returns the
body; five 503s exhaust the 5-attempt budget and raise 503. -/
theorem provider_get_retry_policy_witness :
    (oaGet retryDemoResp).requests = 2 ∧
    (oaGet retryDemoResp).sleeps.get? 0 = some 7 ∧
    (oaGet retryDemoResp).outcome = GetOutcome.success "ok" ∧
    (oaGet retryDemoResp503).requests = 5 ∧
    (oaGet retryDemoResp503).outcome = GetOutcome.httpError 503 := by
  have h1 := (provider_get_retry_policy retryDemoResp).2.2.1 2 (by omega) (by omega)
    (by
      intro j hj1 hj2
      have hj : j = 1 := by omega
      rw [hj]
      exact Or.inl (by rfl))
    (by
      intro hc
      rcases hc with hc | hc
      · exact absurd hc (by decide)
      · exact absurd hc (by decide))
  have hlen : 0 < (oaGet retryDemoResp).sleeps.length := by
    rw [h1.2.1]
    omega
  have h2 := (provider_get_retry_policy retryDemoResp).2.1 0 hlen
  have h3 := (provider_get_retry_policy retryDemoResp503).2.2.2.1
    (by
      intro j hj1 hj2
      exact Or.inr (by constructor <;> norm_num [retryDemoResp503]))
  refine ⟨h1.1, ?_, ?_, h3.1, h3.2.2⟩
  · rw [h2.2]
    rfl
  · rw [h1.2.2]
    rfl

/-! ## C4 — paper upsert (ingestion/db_writer.py, upsert_paper lines 199-302) -/

/-- A row of the papers table (the columns upsert_paper touches). -/
structure PaperRowDB where
  id : Nat
  title : String
  abstract : Option String
  conclusion : Option String
  year : Option Int
  publication_date : Option String
  doi : Option String
  field : Option String
  language : Option String
  referenced_works : List String
  related_works : List String
  venue_id : Option Nat
  venue_instance_id : Option Nat
  concepts : List (String × ℚ)
  external_ids : List (String × String)
deriving DecidableEq

/-- ingestion/models.py, NormalizedPaper (the fields upsert_paper consumes). -/
structure NormalizedPaperRec where
  title : String
  abstract : Option String
  conclusion : Option String
  year : Option Int
  publication_date : Option String
  doi : Option String
  field : Option String
  language : Option String
  referenced_works : List String
  related_works : List String
  concepts : List (String × ℚ)
  external_ids : List (String × String)
deriving DecidableEq

/-- SQL COALESCE(new, old). -/
def coalesce {α : Type} (a b : Option α) : Option α :=
  match a with
  | some v => some v
  | none => b

/-- Apply `f` to the first element satisfying `pred` (an UPDATE against a
unique key touches exactly one row). -/
def updateFirst (pred : α → Bool) (f : α → α) : List α → List α
  | [] => []
  | x :: xs => if pred x then f x :: xs else x :: updateFirst pred f xs

def rowMatchesDoi (d : String) (r : PaperRowDB) : Bool := r.doi = some d

def rowMatchesOA (oa : String) (r : PaperRowDB) : Bool :=
  lookupKey "openalex" r.external_ids = some oa

/-- The SET list of `INSERT ... ON CONFLICT (doi) DO UPDATE` (db_writer.py
lines 223-236): every mutable column, including venue linkage, concepts and
external_ids, is overwritten with the EXCLUDED (new) values. -/
def conflictUpdateRow (p : NormalizedPaperRec) (venue_id venue_instance_id : Option Nat)
    (r : PaperRowDB) : PaperRowDB :=
  { r with
    title := p.title, abstract := p.abstract, conclusion := p.conclusion,
    year := p.year, publication_date := p.publication_date, field := p.field,
    language := p.language, referenced_works := p.referenced_works,
    related_works := p.related_works, venue_id := venue_id,
    venue_instance_id := venue_instance_id, concepts := p.concepts,
    external_ids := p.external_ids }

/-- The follow-up `UPDATE papers SET venue_id = COALESCE(%s, venue_id),
venue_instance_id = COALESCE(%s, venue_instance_id),
external_ids = external_ids || %s WHERE id = %s` (db_writer.py lines
249-259 and 270-279). -/
def coalesceMergeRow (p : NormalizedPaperRec) (venue_id venue_instance_id : Option Nat)
    (r : PaperRowDB) : PaperRowDB :=
  { r with
    venue_id := coalesce venue_id r.venue_id,
    venue_instance_id := coalesce venue_instance_id r.venue_instance_id,
    external_ids := mergeKV r.external_ids p.external_ids }

/-- A freshly inserted row. -/
def newRowFromPaper (id : Nat) (p : NormalizedPaperRec)
    (venue_id venue_instance_id : Option Nat) : PaperRowDB :=
  ⟨id, p.title, p.abstract, p.conclusion, p.year, p.publication_date, p.doi,
   p.field, p.language, p.referenced_works, p.related_works,
   venue_id, venue_instance_id, p.concepts, p.external_ids⟩

/-- db_writer.py, upsert_paper: match by DOI first (INSERT ... ON CONFLICT
(doi) DO UPDATE with full overwrite, then SELECT by doi and run the
COALESCE/merge UPDATE on that id), else match by external_ids->>'openalex'
(COALESCE/merge UPDATE only), else plain INSERT.  Returns the new table,
the next fresh id, and the returned paper id. -/
def upsertPaper (db : List PaperRowDB) (nextId : Nat) (p : NormalizedPaperRec)
    (venue_id venue_instance_id : Option Nat) : List PaperRowDB × Nat × Nat :=
  match p.doi with
  | some d =>
      match db.find? (rowMatchesDoi d) with
      | some r =>
          let db1 := updateFirst (rowMatchesDoi d)
            (conflictUpdateRow p venue_id venue_instance_id) db
          let db2 := updateFirst (fun row => row.id = r.id)
            (coalesceMergeRow p venue_id venue_instance_id) db1
          (db2, nextId, r.id)
      | none =>
          let db1 := db ++ [newRowFromPaper nextId p venue_id venue_instance_id]
          let db2 := updateFirst (fun row => row.id = nextId)
            (coalesceMergeRow p venue_id venue_instance_id) db1
          (db2, nextId + 1, nextId)
  | none =>
      match lookupKey "openalex" p.external_ids with
      | some oa =>
          match db.find? (rowMatchesOA oa) with
          | some r =>
              (updateFirst (rowMatchesOA oa)
                (coalesceMergeRow p venue_id venue_instance_id) db, nextId, r.id)
          | none =>
              (db ++ [newRowFromPaper nextId p venue_id venue_instance_id],
               nextId + 1, nextId)
      | none =>
          (db ++ [newRowFromPaper nextId p venue_id venue_instance_id],
           nextId + 1, nextId)

theorem find_first_match (pred : α → Bool) (pre : List α) (r : α) (post : List α)
    (hpre : ∀ x ∈ pre, pred x = false) (hr : pred r = true) :
    (pre ++ r :: post).find? pred = some r := by
  induction pre with
  | nil => simp [List.find?, hr]
  | cons x xs ih =>
      have hx : pred x = false := hpre x (List.mem_cons_self x xs)
      rw [List.cons_append, List.find?, hx]
      exact ih (fun y hy => hpre y (List.mem_cons_of_mem x hy))

theorem updateFirst_first_match (pred : α → Bool) (f : α → α)
    (pre : List α) (r : α) (post : List α)
    (hpre : ∀ x ∈ pre, pred x = false) (hr : pred r = true) :
    updateFirst pred f (pre ++ r :: post) = pre ++ f r :: post := by
  induction pre with
  | nil => simp [updateFirst, hr]
  | cons x xs ih =>
      have hx : pred x = false := hpre x (List.mem_cons_self x xs)
      rw [List.cons_append, updateFirst, hx]
      simp only [Bool.false_eq_true, if_false, List.cons_append]
      rw [ih (fun y hy => hpre y (List.mem_cons_of_mem x hy))]

/-- C4 input fixtures: an already-stored paper carrying an extra "mag"
namespace and a non-null venue linkage. -/
def c4StoredRow : PaperRowDB :=
  { id := 1, title := "T", abstract := none, conclusion := none, year := none,
    publication_date := none, doi := some "10.1/x", field := none,
    language := none, referenced_works := [], related_works := [],
    venue_id := some 7, venue_instance_id := some 3, concepts := [],
    external_ids := [("openalex", "W1"), ("mag", "M1")] }

/-- C4 input fixtures: the re-ingested paper (same DOI, only the openalex
namespace, no venue resolved this time). -/
def c4Incoming : NormalizedPaperRec :=
  { title := "T2", abstract := none, conclusion := none, year := none,
    publication_date := none, doi := some "10.1/x", field := none,
    language := none, referenced_works := [], related_works := [],
    concepts := [], external_ids := [("openalex", "W1")] }

/-- C4 counterexample: re-ingesting a DOI-matched paper REPLACES its
external_ids (the previously stored "mag" namespace is lost, so the result
is not the union of old and new namespaces) and overwrites its previously
non-null venue linkage with the new null value. -/
theorem upsert_paper_counterexample :
    ((upsertPaper [c4StoredRow] 2 c4Incoming none none).1.head?.map
      (fun r => (lookupKey "mag" r.external_ids, r.venue_id))) = some (none, none) ∧
    (lookupKey "mag" c4StoredRow.external_ids = some "M1" ∧
      c4StoredRow.venue_id = some 7) := by
  refine ⟨by decide, by decide, by decide⟩

/-- C4 amended: when upsert_paper re-ingests an existing paper matched by
external_ids.openalex (no DOI supplied), the stored external_ids afterwards
are the union of old and new namespaces (new value wins per namespace) and
venue_id / venue_instance_id are overwritten by the new value whenever it is
non-null (COALESCE(new, old)) while the remaining metadata is untouched; but
when matched by DOI, external_ids and the venue linkage are simply replaced
by the newly supplied values, previously stored namespaces included. -/
theorem upsert_paper_merge_amended (db : List PaperRowDB) (nextId : Nat)
    (p : NormalizedPaperRec) (vid viid : Option Nat) :
    (∀ d (pre : List PaperRowDB) r post, p.doi = some d →
      db = pre ++ r :: post →
      (∀ x ∈ pre, rowMatchesDoi d x = false) → rowMatchesDoi d r = true →
      (∀ x ∈ pre, x.id ≠ r.id) →
      ∃ r', (upsertPaper db nextId p vid viid).1 = pre ++ r' :: post ∧
        (upsertPaper db nextId p vid viid).2.2 = r.id ∧
        r'.id = r.id ∧ r'.doi = r.doi ∧ r'.title = p.title ∧
        (∀ ns, lookupKey ns r'.external_ids = lookupKey ns p.external_ids) ∧
        r'.venue_id = vid ∧ r'.venue_instance_id = viid) ∧
    (∀ oa (pre : List PaperRowDB) r post, p.doi = none →
      lookupKey "openalex" p.external_ids = some oa →
      db = pre ++ r :: post →
      (∀ x ∈ pre, rowMatchesOA oa x = false) → rowMatchesOA oa r = true →
      ∃ r', (upsertPaper db nextId p vid viid).1 = pre ++ r' :: post ∧
        (upsertPaper db nextId p vid viid).2.2 = r.id ∧
        r'.id = r.id ∧ r'.doi = r.doi ∧ r'.title = r.title ∧
        r'.abstract = r.abstract ∧ r'.concepts = r.concepts ∧
        (∀ ns, lookupKey ns r'.external_ids =
          coalesce (lookupKey ns p.external_ids) (lookupKey ns r.external_ids)) ∧
        r'.venue_id = coalesce vid r.venue_id ∧
        r'.venue_instance_id = coalesce viid r.venue_instance_id) := by
  constructor
  · intro d pre r post hdoi hdb hpre hr hpreid
    subst hdb
    have hfind : (pre ++ r :: post).find? (rowMatchesDoi d) = some r :=
      find_first_match _ pre r post hpre hr
    have hupd1 : updateFirst (rowMatchesDoi d)
        (conflictUpdateRow p vid viid) (pre ++ r :: post) =
        pre ++ conflictUpdateRow p vid viid r :: post :=
      updateFirst_first_match _ _ pre r post hpre hr
    have hid1 : (conflictUpdateRow p vid viid r).id = r.id := rfl
    have hupd2 : updateFirst (fun row => row.id = r.id)
        (coalesceMergeRow p vid viid)
        (pre ++ conflictUpdateRow p vid viid r :: post) =
        pre ++ coalesceMergeRow p vid viid (conflictUpdateRow p vid viid r) :: post := by
      refine updateFirst_first_match _ _ pre _ post ?_ ?_
      · intro x hx
        simp [hpreid x hx]
      · simp [hid1]
    refine ⟨coalesceMergeRow p vid viid (conflictUpdateRow p vid viid r), ?_, ?_,
      rfl, rfl, rfl, ?_, ?_, ?_⟩
    · show (upsertPaper (pre ++ r :: post) nextId p vid viid).1 = _
      simp only [upsertPaper, hdoi, hfind]
      rw [hupd1, hupd2]
    · simp only [upsertPaper, hdoi, hfind]
    · intro ns
      show lookupKey ns (mergeKV p.external_ids p.external_ids) = lookupKey ns p.external_ids
      rw [lookupKey_mergeKV]
      cases lookupKey ns p.external_ids <;> rfl
    · show coalesce vid vid = vid
      cases vid <;> rfl
    · show coalesce viid viid = viid
      cases viid <;> rfl
  · intro oa pre r post hdoi hoa hdb hpre hr
    subst hdb
    have hfind : (pre ++ r :: post).find? (rowMatchesOA oa) = some r :=
      find_first_match _ pre r post hpre hr
    have hupd : updateFirst (rowMatchesOA oa)
        (coalesceMergeRow p vid viid) (pre ++ r :: post) =
        pre ++ coalesceMergeRow p vid viid r :: post :=
      updateFirst_first_match _ _ pre r post hpre hr
    refine ⟨coalesceMergeRow p vid viid r, ?_, ?_, rfl, rfl, rfl, rfl, rfl, ?_, rfl, rfl⟩
    · show (upsertPaper (pre ++ r :: post) nextId p vid viid).1 = _
      simp only [upsertPaper, hdoi, hoa, hfind]
      rw [hupd]
    · simp only [upsertPaper, hdoi, hoa, hfind]
    · intro ns
      show lookupKey ns (mergeKV r.external_ids p.external_ids) =
        coalesce (lookupKey ns p.external_ids) (lookupKey ns r.external_ids)
      rw [lookupKey_mergeKV]
      cases lookupKey ns p.external_ids <;> rfl

/-- C4 fixture for the openalex-matched path: same stored row but without a
DOI, re-ingested by openalex id only. -/
def c4StoredRowNoDoi : PaperRowDB :=
  { c4StoredRow with doi := none }

def c4IncomingNoDoi : NormalizedPaperRec :=
  { c4Incoming with doi := none, external_ids := [("openalex", "W1"), ("doi", "D1")] }

/-- Concrete instantiation of the amended upsert theorem: the
openalex-matched path keeps the old "mag" namespace, gains the new "doi"
namespace, and keeps the non-null venue because the incoming venue is null. -/
theorem upsert_paper_merge_amended_witness :
    ((upsertPaper [c4StoredRowNoDoi] 2 c4IncomingNoDoi none none).1.head?.map
      (fun r => (lookupKey "mag" r.external_ids, lookupKey "doi" r.external_ids,
                 r.venue_id))) = some (some "M1", some "D1", some 7) := by
  rcases (upsert_paper_merge_amended [c4StoredRowNoDoi] 2 c4IncomingNoDoi none none).2
    "W1" [] c4StoredRowNoDoi [] rfl (by decide) rfl (by intro x hx; cases hx) (by decide)
    with ⟨r', hdb, _, _, _, _, _, _, hext, hv, _⟩
  rw [hdb]
  show some (lookupKey "mag" r'.external_ids, lookupKey "doi" r'.external_ids,
    r'.venue_id) = some (some "M1", some "D1", some 7)
  rw [hext "mag", hext "doi", hv]
  rfl

/-! ## C1 — concept-mediated paper search
(semantic/search.py, search_papers_via_concepts lines 211-403) -/

/-- One of the top concepts returned by search_concepts. -/
structure ConceptHit where
  concept_id : String
  name : String
  description : Option String
  distance : ℚ
  similarity : ℚ
deriving DecidableEq

/-- A stored paper with its concepts JSONB (concept id → provider score). -/
structure PaperMeta where
  paper_id : Nat
  title : String
  abstract : Option String
  external_ids : List (String × String)
  source_id : Option String
  concepts : List (String × ℚ)
deriving DecidableEq

/-- One row of the ranked SQL join (concept_params × papers). -/
structure JoinRow where
  concept_id : String
  concept_similarity : ℚ
  paper_id : Nat
  title : String
  abstract : Option String
  external_ids : List (String × String)
  source_id : Option String
  concept_score_in_paper : ℚ
  matching_score : ℚ
deriving DecidableEq

/-- matching_score = similarity(query, concept) × concept_score_in_paper. -/
def mkJoinRow (c : ConceptHit) (m : PaperMeta) (score : ℚ) : JoinRow :=
  ⟨c.concept_id, c.similarity, m.paper_id, m.title, m.abstract, m.external_ids,
   m.source_id, score, c.similarity * score⟩

def rowLeByMatchingDesc (a b : JoinRow) : Bool :=
  decide (b.matching_score ≤ a.matching_score)

/-- The paper_concepts / ranked CTEs restricted to one concept: papers whose
concepts JSONB contains the concept id, ordered descending by
matching_score, the top `top_k_papers_per_concept` rows kept
(`WHERE rn <= top_k_papers_per_concept`). -/
def rowsForConcept (papers : List PaperMeta) (top_k_papers_per_concept : Nat)
    (c : ConceptHit) : List JoinRow :=
  (sortBy rowLeByMatchingDesc
    (papers.filterMap (fun m =>
      (lookupKey c.concept_id m.concepts).map (mkJoinRow c m)))).take
    top_k_papers_per_concept

/-- The full SQL result over all concept_params. -/
def joinRows (concepts : List ConceptHit) (papers : List PaperMeta)
    (top_k_papers_per_concept : Nat) : List JoinRow :=
  concepts.bind (rowsForConcept papers top_k_papers_per_concept)

/-- One value of the paper_scores dict. -/
structure PaperAgg where
  paper_id : Nat
  title : String
  abstract : Option String
  external_ids : List (String × String)
  source_id : Option String
  score_sum : ℚ
  matched_concepts_count : Nat
deriving DecidableEq

/-- One aggregation step of the `for r in rows` loop: create the paper's
entry on first sight, then add matching_score to score_sum and bump
matched_concepts_count (Python dicts have unique keys, updated in place). -/
def accumPaper (r : JoinRow) : List PaperAgg → List PaperAgg
  | [] => [⟨r.paper_id, r.title, r.abstract, r.external_ids, r.source_id,
      r.matching_score, 1⟩]
  | a :: rest =>
      if a.paper_id = r.paper_id then
        { a with
          score_sum := a.score_sum + r.matching_score,
          matched_concepts_count := a.matched_concepts_count + 1 } :: rest
      else a :: accumPaper r rest

def buildPaperScores (rows : List JoinRow) : List PaperAgg :=
  rows.foldl (fun acc r => accumPaper r acc) []

/-- One record of the flat paper list. -/
structure PaperOut where
  paper_id : Nat
  title : String
  abstract : Option String
  external_ids : List (String × String)
  source_id : Option String
  total_score : ℚ
deriving DecidableEq

def outLeByTotalDesc (a b : PaperOut) : Bool :=
  decide (b.total_score ≤ a.total_score)

/-- The result object of search_papers_via_concepts (the per-concept
explanation lists are the rows of each concept, as appended row by row). -/
structure ViaConceptsResult where
  conceptPapers : List (ConceptHit × List JoinRow)
  papers : List PaperOut
  limit : Nat
  offset : Nat
  total_papers : Nat
deriving DecidableEq

/-- search.py, search_papers_via_concepts: zero concepts short-circuit to an
empty result; otherwise every paper aggregates
total_score = score_sum / top_k_concepts (guarded by top_k_concepts > 0),
the flat list is sorted descending by total_score and sliced
[offset : offset + limit].  `concepts` stands for the search_concepts
output. -/
def searchPapersViaConcepts (concepts : List ConceptHit) (papers : List PaperMeta)
    (top_k_concepts top_k_papers_per_concept limit offset : Nat) : ViaConceptsResult :=
  if concepts = [] then ⟨[], [], limit, offset, 0⟩
  else
    let rows := joinRows concepts papers top_k_papers_per_concept
    let aggs := buildPaperScores rows
    let all_papers :=
      if 0 < top_k_concepts then
        sortBy outLeByTotalDesc (aggs.map (fun a =>
          ⟨a.paper_id, a.title, a.abstract, a.external_ids, a.source_id,
           a.score_sum / (top_k_concepts : ℚ)⟩))
      else []
    ⟨concepts.map (fun c => (c, rows.filter (fun r => r.concept_id = c.concept_id))),
     (all_papers.drop offset).take limit, limit, offset, all_papers.length⟩

/-- Score of paper `pid` in the paper_scores dict. -/
def scoreSumOf (l : List PaperAgg) (pid : Nat) : Option ℚ :=
  (l.find? (fun a => a.paper_id = pid)).map PaperAgg.score_sum

/-- Sum of matching_score over the rows of one paper. -/
def sumRows (rows : List JoinRow) (pid : Nat) : ℚ :=
  ((rows.filter (fun r => r.paper_id = pid)).map JoinRow.matching_score).sum

theorem scoreSumOf_accumPaper (r : JoinRow) (acc : List PaperAgg) (pid : Nat) :
    scoreSumOf (accumPaper r acc) pid =
      if r.paper_id = pid then
        match scoreSumOf acc pid with
        | some s => some (s + r.matching_score)
        | none => some r.matching_score
      else scoreSumOf acc pid := by
  induction acc with
  | nil =>
      by_cases h : r.paper_id = pid
      · simp [accumPaper, scoreSumOf, List.find?, h]
      · simp [accumPaper, scoreSumOf, List.find?, h]
  | cons a rest ih =>
      by_cases ha : a.paper_id = r.paper_id
      · rw [accumPaper, if_pos ha]
        by_cases hp : r.paper_id = pid
        · have hap : a.paper_id = pid := ha.trans hp
          rw [if_pos hp]
          simp [scoreSumOf, List.find?, hap]
        · have hap : ¬ a.paper_id = pid := fun he => hp (ha.symm.trans he)
          rw [if_neg hp]
          simp [scoreSumOf, List.find?, hap]
      · rw [accumPaper, if_neg ha]
        by_cases hap : a.paper_id = pid
        · have hp : ¬ r.paper_id = pid := fun he => ha (hap.trans he.symm)
          rw [if_neg hp]
          simp [scoreSumOf, List.find?, hap]
        · have hskip : ∀ l : List PaperAgg, scoreSumOf (a :: l) pid = scoreSumOf l pid := by
            intro l
            simp [scoreSumOf, List.find?, hap]
          rw [hskip]
          simp only [hskip]
          exact ih

theorem sumRows_cons (r : JoinRow) (rows : List JoinRow) (pid : Nat) :
    sumRows (r :: rows) pid =
      if r.paper_id = pid then r.matching_score + sumRows rows pid
      else sumRows rows pid := by
  by_cases h : r.paper_id = pid
  · simp [sumRows, List.filter_cons, h]
  · simp [sumRows, List.filter_cons, h]

theorem scoreSumOf_fold (rows : List JoinRow) :
    ∀ acc pid,
      scoreSumOf (rows.foldl (fun acc r => accumPaper r acc) acc) pid =
        match scoreSumOf acc pid with
        | some s => some (s + sumRows rows pid)
        | none =>
            if rows.any (fun r => r.paper_id = pid) then some (sumRows rows pid)
            else none := by
  induction rows with
  | nil =>
      intro acc pid
      cases h : scoreSumOf acc pid <;> simp [sumRows, h]
  | cons r rest ih =>
      intro acc pid
      rw [List.foldl_cons, ih (accumPaper r acc) pid, scoreSumOf_accumPaper]
      by_cases hp : r.paper_id = pid
      · rw [if_pos hp, sumRows_cons, if_pos hp]
        cases h : scoreSumOf acc pid with
        | some s =>
            simp only [List.any_cons, hp]
            rw [add_assoc]
        | none =>
            simp only [List.any_cons, hp]
            cases hany : rest.any (fun r => r.paper_id = pid) <;> simp [hany]
      · rw [if_neg hp, sumRows_cons, if_neg hp]
        cases h : scoreSumOf acc pid with
        | some s => simp
        | none => simp [List.any_cons, hp]

theorem mem_accumPaper (r : JoinRow) (acc : List PaperAgg) (b : PaperAgg)
    (hb : b ∈ accumPaper r acc) :
    (∃ a0 ∈ acc, b.paper_id = a0.paper_id) ∨ b.paper_id = r.paper_id := by
  induction acc with
  | nil =>
      rw [accumPaper] at hb
      rcases List.mem_cons.mp hb with h | h
      · exact Or.inr (by rw [h])
      · cases h
  | cons a rest ih =>
      by_cases ha : a.paper_id = r.paper_id
      · rw [accumPaper, if_pos ha] at hb
        rcases List.mem_cons.mp hb with h | h
        · exact Or.inl ⟨a, List.mem_cons_self a rest, by rw [h]⟩
        · exact Or.inl ⟨b, List.mem_cons_of_mem a h, rfl⟩
      · rw [accumPaper, if_neg ha] at hb
        rcases List.mem_cons.mp hb with h | h
        · exact Or.inl ⟨a, List.mem_cons_self a rest, by rw [h]⟩
        · rcases ih h with ⟨a0, ha0, he⟩ | he
          · exact Or.inl ⟨a0, List.mem_cons_of_mem a ha0, he⟩
          · exact Or.inr he

theorem keys_nodup_accumPaper (r : JoinRow) (acc : List PaperAgg)
    (h : (acc.map PaperAgg.paper_id).Nodup) :
    ((accumPaper r acc).map PaperAgg.paper_id).Nodup := by
  induction acc with
  | nil => simp [accumPaper]
  | cons a rest ih =>
      rw [List.map_cons, List.nodup_cons] at h
      by_cases ha : a.paper_id = r.paper_id
      · rw [accumPaper, if_pos ha, List.map_cons, List.nodup_cons]
        exact ⟨h.1, h.2⟩
      · rw [accumPaper, if_neg ha, List.map_cons, List.nodup_cons]
        refine ⟨?_, ih h.2⟩
        intro hmem
        rcases List.mem_map.mp hmem with ⟨b, hbmem, hbeq⟩
        rcases mem_accumPaper r rest b hbmem with ⟨a0, ha0, he⟩ | he
        · exact h.1 (List.mem_map.mpr ⟨a0, ha0, (he.symm.trans hbeq)⟩)
        · exact ha (hbeq.symm.trans he)

theorem buildPaperScores_keys_nodup (rows : List JoinRow) :
    ((buildPaperScores rows).map PaperAgg.paper_id).Nodup := by
  suffices hgen : ∀ acc : List PaperAgg, (acc.map PaperAgg.paper_id).Nodup →
      ((rows.foldl (fun acc r => accumPaper r acc) acc).map PaperAgg.paper_id).Nodup by
    exact hgen [] (by simp)
  induction rows with
  | nil => intro acc hacc; exact hacc
  | cons r rest ih =>
      intro acc hacc
      rw [List.foldl_cons]
      exact ih (accumPaper r acc) (keys_nodup_accumPaper r acc hacc)

theorem find_agg_of_mem (l : List PaperAgg) (a : PaperAgg)
    (hnd : (l.map PaperAgg.paper_id).Nodup) (ha : a ∈ l) :
    l.find? (fun x => x.paper_id = a.paper_id) = some a := by
  induction l with
  | nil => cases ha
  | cons b rest ih =>
      rw [List.map_cons, List.nodup_cons] at hnd
      rcases List.mem_cons.mp ha with h | h
      · subst h
        simp [List.find?]
      · have hb : ¬ b.paper_id = a.paper_id := by
          intro he
          exact hnd.1 (he ▸ List.mem_map_of_mem PaperAgg.paper_id h)
        have hstep : (b :: rest).find? (fun x => x.paper_id = a.paper_id) =
            rest.find? (fun x => x.paper_id = a.paper_id) := by
          simp [List.find?, hb]
        rw [hstep]
        exact ih hnd.2 h

/-- C1: for top_k_concepts = K_c > 0, every paper in the result of
search_papers_via_concepts has
total_score = (Σ matching_score over the ranked join rows of that paper,
i.e. over the concepts that matched it) / K_c — the divisor is the requested
number of top concepts, not the number of concepts the paper matched. -/
theorem via_concepts_total_score (concepts : List ConceptHit)
    (papers : List PaperMeta) (K_c K_p limit offset : Nat) (hK : 0 < K_c) :
    ∀ p ∈ (searchPapersViaConcepts concepts papers K_c K_p limit offset).papers,
      p.total_score = sumRows (joinRows concepts papers K_p) p.paper_id / (K_c : ℚ) := by
  intro p hp
  by_cases hc : concepts = []
  · rw [searchPapersViaConcepts, if_pos hc] at hp
    cases hp
  · rw [searchPapersViaConcepts, if_neg hc] at hp
    simp only [if_pos hK] at hp
    set sorted := sortBy outLeByTotalDesc
        ((buildPaperScores (joinRows concepts papers K_p)).map (fun a =>
          (⟨a.paper_id, a.title, a.abstract, a.external_ids, a.source_id,
            a.score_sum / (K_c : ℚ)⟩ : PaperOut))) with hsorted
    have hmem : p ∈ sorted := by
      have hsub := (List.take_sublist limit (sorted.drop offset)).trans
        (List.drop_sublist offset sorted)
      exact hsub.subset hp
    rw [hsorted] at hmem
    have hmem2 := (sortBy_perm outLeByTotalDesc _).mem_iff.mp hmem
    rcases List.mem_map.mp hmem2 with ⟨a, ha, rfl⟩
    have hfind : (buildPaperScores (joinRows concepts papers K_p)).find?
        (fun x => x.paper_id = a.paper_id) = some a :=
      find_agg_of_mem _ a (buildPaperScores_keys_nodup _) ha
    have hsum : scoreSumOf (buildPaperScores (joinRows concepts papers K_p))
        a.paper_id = some a.score_sum := by
      rw [scoreSumOf, hfind]
      rfl
    rw [buildPaperScores, scoreSumOf_fold] at hsum
    have hsum2 : (if (joinRows concepts papers K_p).any
          (fun r => r.paper_id = a.paper_id) = true
        then some (sumRows (joinRows concepts papers K_p) a.paper_id)
        else none) = some a.score_sum := hsum
    have hscore : a.score_sum = sumRows (joinRows concepts papers K_p) a.paper_id := by
      cases hany : (joinRows concepts papers K_p).any (fun r => r.paper_id = a.paper_id) with
      | false =>
          rw [hany, if_neg Bool.false_ne_true] at hsum2
          cases hsum2
      | true =>
          rw [hany, if_pos rfl] at hsum2
          exact (Option.some_inj.mp hsum2).symm
    show a.score_sum / (K_c : ℚ) = _
    rw [hscore]

/-- Concrete instantiation of the via-concepts score theorem: one concept,
one matching paper, K_c = 5. -/
theorem via_concepts_total_score_witness :
    0 < 5 ∧
    (∀ p ∈ (searchPapersViaConcepts [⟨"C1", "c", none, 0, 1⟩]
        [⟨1, "P", none, [], none, [("C1", 1)]⟩] 5 10 10 0).papers,
      p.total_score = sumRows (joinRows [⟨"C1", "c", none, 0, 1⟩]
        [⟨1, "P", none, [], none, [("C1", 1)]⟩] 10) p.paper_id / ((5 : Nat) : ℚ)) :=
  ⟨by decide, via_concepts_total_score [⟨"C1", "c", none, 0, 1⟩]
    [⟨1, "P", none, [], none, [("C1", 1)]⟩] 5 10 10 0 (by decide)⟩

/-! ## C7 — abstract inverted-index round trip
(ingestion/openalex/normalizer.py, _reconstruct_abstract lines 12-27) -/

/-- All positions appearing in an inverted index. -/
def allPositions (idx : List (List Char × List Nat)) : List Nat :=
  idx.flatMap Prod.snd

/-- The inner loop `for pos in positions: tokens[pos] = word`. -/
def setAll (w : List Char) (ps : List Nat) (t : List (Option (List Char))) :
    List (Option (List Char)) :=
  ps.foldl (fun t p => t.set p (some w)) t

/-- The outer loop `for word, positions in inverted_index.items()`. -/
def fillTokens (idx : List (List Char × List Nat))
    (t : List (Option (List Char))) : List (Option (List Char)) :=
  idx.foldl (fun t wp => setAll wp.1 wp.2 t) t

/-- Python `" ".join(ws)`. -/
def joinSpace : List (List Char) → List Char
  | [] => []
  | [w] => w
  | w :: w2 :: ws => w ++ ' ' :: joinSpace (w2 :: ws)

/-- normalizer.py, _reconstruct_abstract: an empty index gives "", otherwise
a token array of size max position + 1 is filled word by word and the
non-None tokens are joined with single spaces. -/
def reconstructAbstract (idx : List (List Char × List Nat)) : List Char :=
  if idx = [] then []
  else
    joinSpace ((fillTokens idx
      (List.replicate ((allPositions idx).foldl Nat.max 0 + 1) none)).filterMap id)

/-- Python `s.split(" ")` (split on every single space). -/
def splitSpace : List Char → List (List Char)
  | [] => [[]]
  | c :: cs =>
      if c = ' ' then [] :: splitSpace cs
      else
        match splitSpace cs with
        | [] => [[c]]
        | w :: ws => (c :: w) :: ws

/-- C7 counterexample: for the inverted index {"a": [0], "b": [2]} (position
1 unused) the reconstruction is "a b", whose split places "b" at position 1,
not at the listed position 2 — the round trip fails for indexes whose
positions do not cover 0..max. -/
theorem abstract_roundtrip_counterexample :
    ¬ ((2 ∈ ([2] : List Nat)) ↔
      (splitSpace (reconstructAbstract
        [("a".toList, [0]), ("b".toList, [2])])).get? 2 = some ("b".toList)) ∧
    splitSpace (reconstructAbstract [("a".toList, [0]), ("b".toList, [2])]) =
      ["a".toList, "b".toList] := by
  refine ⟨by decide, by decide⟩

theorem length_setAll (w : List Char) (ps : List Nat)
    (t : List (Option (List Char))) : (setAll w ps t).length = t.length := by
  induction ps generalizing t with
  | nil => rfl
  | cons q ps ih =>
      rw [setAll, List.foldl_cons]
      exact (ih (t.set q (some w))).trans (List.length_set t q _)

theorem get?_setAll (w : List Char) (ps : List Nat)
    (t : List (Option (List Char))) (p : Nat) :
    (setAll w ps t).get? p =
      if p ∈ ps ∧ p < t.length then some (some w) else t.get? p := by
  induction ps generalizing t with
  | nil => simp [setAll]
  | cons q ps ih =>
      rw [setAll, List.foldl_cons]
      have hih := ih (t.set q (some w))
      rw [setAll] at hih
      rw [hih, List.length_set]
      by_cases hmem : p ∈ ps ∧ p < t.length
      · rw [if_pos hmem, if_pos ⟨List.mem_cons_of_mem q hmem.1, hmem.2⟩]
      · rw [if_neg hmem]
        by_cases hq : p = q
        · subst hq
          by_cases hlen : p < t.length
          · rw [if_pos ⟨List.mem_cons_self p ps, hlen⟩]
            rw [List.get?_set_eq_of_lt _ hlen]
          · rw [if_neg (fun hh => hlen hh.2)]
            have h1 : (t.set p (some w)).get? p = none := by
              rw [List.get?_eq_none]
              rw [List.length_set]
              omega
            have h2 : t.get? p = none := by
              rw [List.get?_eq_none]
              omega
            rw [h1, h2]
        · rw [List.get?_set_ne _ _ (fun hh => hq hh.symm)]
          have hnotin : ¬ (p ∈ q :: ps ∧ p < t.length) := by
            intro hh
            rcases List.mem_cons.mp hh.1 with h | h
            · exact hq h
            · exact hmem ⟨h, hh.2⟩
          rw [if_neg hnotin]

theorem length_fillTokens (idx : List (List Char × List Nat))
    (t : List (Option (List Char))) : (fillTokens idx t).length = t.length := by
  induction idx generalizing t with
  | nil => rfl
  | cons wp rest ih =>
      rw [fillTokens, List.foldl_cons]
      have hih := ih (setAll wp.1 wp.2 t)
      rw [fillTokens] at hih
      rw [hih, length_setAll]

theorem get?_fillTokens_not_mem (idx : List (List Char × List Nat))
    (t : List (Option (List Char))) (p : Nat)
    (hp : p ∉ allPositions idx) :
    (fillTokens idx t).get? p = t.get? p := by
  induction idx generalizing t with
  | nil => rfl
  | cons wp rest ih =>
      rw [allPositions, List.flatMap_cons] at hp
      have hp1 : p ∉ wp.2 := fun hh => hp (List.mem_append.mpr (Or.inl hh))
      have hp2 : p ∉ allPositions rest := by
        intro hh
        exact hp (List.mem_append.mpr (Or.inr hh))
      rw [fillTokens, List.foldl_cons]
      have hih := ih (setAll wp.1 wp.2 t) hp2
      rw [fillTokens] at hih
      rw [hih, get?_setAll, if_neg (fun hh => hp1 hh.1)]

theorem get?_fillTokens_count_one (idx : List (List Char × List Nat))
    (t : List (Option (List Char))) (p : Nat)
    (hcount : (allPositions idx).count p = 1) :
    ∀ wp ∈ idx, p ∈ wp.2 → p < t.length →
      (fillTokens idx t).get? p = some (some wp.1) := by
  induction idx generalizing t with
  | nil => intro wp hwp; cases hwp
  | cons wp0 rest ih =>
      intro wp hwp hpos hlen
      rw [allPositions, List.flatMap_cons, List.count_append,
        show rest.flatMap Prod.snd = allPositions rest from rfl] at hcount
      rw [fillTokens, List.foldl_cons]
      have hfold : (rest.foldl (fun t wp => setAll wp.1 wp.2 t)
          (setAll wp0.1 wp0.2 t)) = fillTokens rest (setAll wp0.1 wp0.2 t) := rfl
      rw [hfold]
      rcases List.mem_cons.mp hwp with h | h
      · subst h
        have hc1 : 0 < wp.2.count p := List.count_pos_iff.mpr hpos
        have hc2 : (allPositions rest).count p = 0 := by omega
        have hnotin : p ∉ allPositions rest := List.count_eq_zero.mp hc2
        rw [get?_fillTokens_not_mem rest _ p hnotin]
        rw [get?_setAll, if_pos ⟨hpos, hlen⟩]
      · have hc1 : 0 < (allPositions rest).count p := by
          refine List.count_pos_iff.mpr ?_
          rw [allPositions]
          exact List.mem_flatMap.mpr ⟨wp, h, hpos⟩
        have hc2 : (allPositions rest).count p = 1 := by omega
        refine ih (setAll wp0.1 wp0.2 t) hc2 wp h hpos ?_
        rw [length_setAll]
        exact hlen

theorem foldl_max_spec (l : List Nat) :
    ∀ a : Nat, (∀ x ∈ l, x ≤ l.foldl Nat.max a) ∧ a ≤ l.foldl Nat.max a ∧
      (l.foldl Nat.max a ∈ l ∨ l.foldl Nat.max a = a) := by
  induction l with
  | nil => intro a; exact ⟨fun x hx => absurd hx (List.not_mem_nil x), le_refl a, Or.inr rfl⟩
  | cons x xs ih =>
      intro a
      rw [List.foldl_cons]
      rcases ih (Nat.max a x) with ⟨hall, hle, hmem⟩
      refine ⟨?_, ?_, ?_⟩
      · intro y hy
        rcases List.mem_cons.mp hy with h | h
        · subst h
          exact le_trans (Nat.le_max_right a y) hle
        · exact hall y h
      · exact le_trans (Nat.le_max_left a x) hle
      · rcases hmem with h | h
        · exact Or.inl (List.mem_cons_of_mem x h)
        · rcases Nat.le_total x a with hax | hax
          · exact Or.inr (h.trans (Nat.max_eq_left hax))
          · exact Or.inl (List.mem_cons.mpr (Or.inl (h.trans (Nat.max_eq_right hax))))

theorem foldl_max_of_perm_range (l : List Nat) (n : Nat) (hn : 0 < n)
    (hperm : l.Perm (List.range n)) : l.foldl Nat.max 0 = n - 1 := by
  rcases foldl_max_spec l 0 with ⟨hall, _, hmem⟩
  have hmemrange : n - 1 ∈ l := by
    rw [hperm.mem_iff, List.mem_range]
    omega
  have hub : n - 1 ≤ l.foldl Nat.max 0 := hall (n - 1) hmemrange
  rcases hmem with h | h
  · have : l.foldl Nat.max 0 ∈ List.range n := hperm.mem_iff.mp h
    rw [List.mem_range] at this
    omega
  · omega

theorem filterMap_id_of_all_some (toks : List (Option (List Char)))
    (h : ∀ x ∈ toks, x ≠ none) : toks = (toks.filterMap id).map some := by
  induction toks with
  | nil => rfl
  | cons x rest ih =>
      cases x with
      | none => exact absurd rfl (h none (List.mem_cons_self none rest))
      | some a =>
          rw [List.filterMap_cons]
          simp only [id]
          rw [List.map_cons]
          rw [← ih (fun y hy => h y (List.mem_cons_of_mem _ hy))]

theorem splitSpace_spacefree (w : List Char) (hw : ' ' ∉ w) :
    splitSpace w = [w] := by
  induction w with
  | nil => rfl
  | cons c w ih =>
      have hc : ¬ c = ' ' := fun hh => hw (hh ▸ List.mem_cons_self c w)
      rw [splitSpace, if_neg hc, ih (fun hh => hw (List.mem_cons_of_mem c hh))]

theorem splitSpace_spacefree_append (w rest : List Char) (hw : ' ' ∉ w) :
    splitSpace (w ++ ' ' :: rest) = w :: splitSpace rest := by
  induction w with
  | nil =>
      rw [List.nil_append, splitSpace, if_pos rfl]
  | cons c w ih =>
      have hc : ¬ c = ' ' := fun hh => hw (hh ▸ List.mem_cons_self c w)
      rw [List.cons_append, splitSpace, if_neg hc,
        ih (fun hh => hw (List.mem_cons_of_mem c hh))]

theorem splitSpace_joinSpace (ws : List (List Char)) (hne : ws ≠ [])
    (hsp : ∀ w ∈ ws, ' ' ∉ w) : splitSpace (joinSpace ws) = ws := by
  induction ws with
  | nil => exact absurd rfl hne
  | cons w ws ih =>
      cases ws with
      | nil =>
          rw [joinSpace]
          exact splitSpace_spacefree w (hsp w (List.mem_cons_self w []))
      | cons w2 ws2 =>
          rw [joinSpace, splitSpace_spacefree_append w _ (hsp w (List.mem_cons_self w _))]
          rw [ih (by simp) (fun y hy => hsp y (List.mem_cons_of_mem w hy))]

theorem eq_of_mem_nodup_keys (l : List (List Char × List Nat))
    (hnd : (l.map Prod.fst).Nodup) (a b : List Char × List Nat)
    (ha : a ∈ l) (hb : b ∈ l) (hab : a.1 = b.1) : a = b := by
  induction l with
  | nil => cases ha
  | cons x rest ih =>
      rw [List.map_cons, List.nodup_cons] at hnd
      rcases List.mem_cons.mp ha with h1 | h1
      · rcases List.mem_cons.mp hb with h2 | h2
        · exact h1.trans h2.symm
        · exact absurd ((h1 ▸ hab) ▸ List.mem_map_of_mem Prod.fst h2) hnd.1
      · rcases List.mem_cons.mp hb with h2 | h2
        · exact absurd ((h2 ▸ hab.symm) ▸ List.mem_map_of_mem Prod.fst h1) hnd.1
        · exact ih hnd.2 h1 h2

/-- C7 amended: for every well-formed abstract inverted index — non-empty,
distinct words, space-free words, and positions forming exactly 0..n-1 —
reconstructing the abstract and splitting it on spaces puts every word
exactly at the positions listed for it in the index. -/
theorem abstract_roundtrip_amended (idx : List (List Char × List Nat)) (n : Nat)
    (hne : idx ≠ []) (hkeys : (idx.map Prod.fst).Nodup)
    (hsp : ∀ wp ∈ idx, ' ' ∉ wp.1)
    (hperm : (allPositions idx).Perm (List.range n)) (hn : 0 < n) :
    ∀ wp ∈ idx, ∀ p : Nat,
      p ∈ wp.2 ↔ (splitSpace (reconstructAbstract idx)).get? p = some wp.1 := by
  have hmax : (allPositions idx).foldl Nat.max 0 + 1 = n := by
    rw [foldl_max_of_perm_range _ n hn hperm]
    omega
  have hcount : ∀ p : Nat, p < n → (allPositions idx).count p = 1 := by
    intro p hp
    rw [hperm.count_eq]
    exact List.count_eq_one_of_mem (List.nodup_range n) (List.mem_range.mpr hp)
  have hcover : ∀ p : Nat, p < n → ∃ wp ∈ idx, p ∈ wp.2 := by
    intro p hp
    have h1 : 0 < (allPositions idx).count p := by
      rw [hcount p hp]
      omega
    have h2 := List.count_pos_iff.mp h1
    rw [allPositions] at h2
    exact List.mem_flatMap.mp h2
  set T := fillTokens idx (List.replicate n none) with hT
  have hTlen : T.length = n := by
    rw [hT, length_fillTokens, List.length_replicate]
  have hTget : ∀ p : Nat, p < n → ∀ wp ∈ idx, p ∈ wp.2 →
      T.get? p = some (some wp.1) := by
    intro p hp wp hwp hpos
    rw [hT]
    refine get?_fillTokens_count_one idx _ p (hcount p hp) wp hwp hpos ?_
    rw [List.length_replicate]
    exact hp
  have hTsome : ∀ x ∈ T, x ≠ none := by
    intro x hx hxn
    subst hxn
    rcases List.mem_iff_get?.mp hx with ⟨q, hq⟩
    have hqlt : q < n := by
      have := (List.get?_eq_some.mp hq).1
      omega
    rcases hcover q hqlt with ⟨wp, hwp, hpos⟩
    rw [hTget q hqlt wp hwp hpos] at hq
    cases hq
  set ws := T.filterMap id with hws
  have hTws : T = ws.map some := by
    rw [hws]
    exact filterMap_id_of_all_some T hTsome
  have hwslen : ws.length = n := by
    have := congrArg List.length hTws
    rw [List.length_map] at this
    omega
  have hwsget : ∀ p : Nat, ws.get? p = (T.get? p).bind id := by
    intro p
    rw [hTws, List.get?_map]
    cases ws.get? p <;> rfl
  have hwssp : ∀ w ∈ ws, ' ' ∉ w := by
    intro w hw
    rcases List.mem_iff_get?.mp hw with ⟨q, hq⟩
    have hqlt : q < n := by
      have := (List.get?_eq_some.mp hq).1
      omega
    rcases hcover q hqlt with ⟨wp, hwp, hpos⟩
    have h1 : T.get? q = some (some wp.1) := hTget q hqlt wp hwp hpos
    have h2 : ws.get? q = some wp.1 := by
      rw [hwsget q, h1]
      rfl
    rw [hq] at h2
    cases h2
    exact hsp wp hwp
  have hrec : reconstructAbstract idx = joinSpace ws := by
    rw [reconstructAbstract, if_neg hne, hmax]
  have hwsne : ws ≠ [] := by
    intro hh
    rw [hh] at hwslen
    exact absurd hwslen.symm (Nat.ne_of_gt hn)
  have hsplit : splitSpace (reconstructAbstract idx) = ws := by
    rw [hrec]
    exact splitSpace_joinSpace ws hwsne hwssp
  intro wp hwp p
  rw [hsplit]
  constructor
  · intro hpos
    have hp : p < n := by
      have h1 : p ∈ allPositions idx := by
        rw [allPositions]
        exact List.mem_flatMap.mpr ⟨wp, hwp, hpos⟩
      have := hperm.mem_iff.mp h1
      rw [List.mem_range] at this
      exact this
    have h1 : T.get? p = some (some wp.1) := hTget p hp wp hwp hpos
    rw [hwsget p, h1]
    rfl
  · intro hget
    have hp : p < n := by
      have := (List.get?_eq_some.mp hget).1
      omega
    rcases hcover p hp with ⟨wp', hwp', hpos'⟩
    have h1 : T.get? p = some (some wp'.1) := hTget p hp wp' hwp' hpos'
    have h2 : ws.get? p = some wp'.1 := by
      rw [hwsget p, h1]
      rfl
    rw [hget] at h2
    have hkey : wp.1 = wp'.1 := Option.some_inj.mp h2
    have : wp = wp' := eq_of_mem_nodup_keys idx hkeys wp wp' hwp hwp' hkey
    rw [this]
    exact hpos'

/-- Concrete instantiation of the amended round-trip theorem on the index
{"ab": [1], "c": [0]} covering positions 0..1. -/
theorem abstract_roundtrip_amended_witness :
    (splitSpace (reconstructAbstract
      [("ab".toList, [1]), ("c".toList, [0])])).get? 1 = some ("ab".toList) :=
  (abstract_roundtrip_amended [("ab".toList, [1]), ("c".toList, [0])] 2
    (by decide) (by decide) (by decide) (by decide) (by decide)
    ("ab".toList, [1]) (by decide) 1).mp (by decide)

end LitScout
